import Mathlib

/-!
# Verification of the json-schema-editor schema editing engine

Shallow embedding of the schema-document editing logic of
`src/app/[uuid]/SchemaProperties.tsx` and `src/app/[uuid]/page.tsx`.

The editor manipulates untyped JSON documents (plain JS objects produced by
`JSON.parse`).  We model those documents with the inductive type `Json`:
a JS object is an ordered association list of string keys to values (JS
objects preserve insertion order for string keys, and documents obtained
from `JSON.parse` never contain duplicate keys or `undefined` values).
All editor operations start with `JSON.parse(JSON.stringify(prev))`, a deep
structural copy, which is the identity on this model; subsequent in-place
mutation of the copy is modelled by pure functions returning the new value.
-/

namespace SchemaEditor

inductive Json where
  | null : Json
  | bool : Bool → Json
  | num : Int → Json
  | str : String → Json
  | arr : List Json → Json
  | obj : List (String × Json) → Json

mutual

def Json.decEq : (a b : Json) → Decidable (a = b)
  | .null, .null => isTrue rfl
  | .null, .bool _ => isFalse (fun h => Json.noConfusion h)
  | .null, .num _ => isFalse (fun h => Json.noConfusion h)
  | .null, .str _ => isFalse (fun h => Json.noConfusion h)
  | .null, .arr _ => isFalse (fun h => Json.noConfusion h)
  | .null, .obj _ => isFalse (fun h => Json.noConfusion h)
  | .bool _, .null => isFalse (fun h => Json.noConfusion h)
  | .bool x, .bool y =>
      match instDecidableEqBool x y with
      | isTrue h => isTrue (by rw [h])
      | isFalse h => isFalse (fun hh => h (Json.bool.inj hh))
  | .bool _, .num _ => isFalse (fun h => Json.noConfusion h)
  | .bool _, .str _ => isFalse (fun h => Json.noConfusion h)
  | .bool _, .arr _ => isFalse (fun h => Json.noConfusion h)
  | .bool _, .obj _ => isFalse (fun h => Json.noConfusion h)
  | .num _, .null => isFalse (fun h => Json.noConfusion h)
  | .num _, .bool _ => isFalse (fun h => Json.noConfusion h)
  | .num x, .num y =>
      match Int.instDecidableEq x y with
      | isTrue h => isTrue (by rw [h])
      | isFalse h => isFalse (fun hh => h (Json.num.inj hh))
  | .num _, .str _ => isFalse (fun h => Json.noConfusion h)
  | .num _, .arr _ => isFalse (fun h => Json.noConfusion h)
  | .num _, .obj _ => isFalse (fun h => Json.noConfusion h)
  | .str _, .null => isFalse (fun h => Json.noConfusion h)
  | .str _, .bool _ => isFalse (fun h => Json.noConfusion h)
  | .str _, .num _ => isFalse (fun h => Json.noConfusion h)
  | .str x, .str y =>
      match instDecidableEqString x y with
      | isTrue h => isTrue (by rw [h])
      | isFalse h => isFalse (fun hh => h (Json.str.inj hh))
  | .str _, .arr _ => isFalse (fun h => Json.noConfusion h)
  | .str _, .obj _ => isFalse (fun h => Json.noConfusion h)
  | .arr _, .null => isFalse (fun h => Json.noConfusion h)
  | .arr _, .bool _ => isFalse (fun h => Json.noConfusion h)
  | .arr _, .num _ => isFalse (fun h => Json.noConfusion h)
  | .arr _, .str _ => isFalse (fun h => Json.noConfusion h)
  | .arr xs, .arr ys =>
      match Json.decEqList xs ys with
      | isTrue h => isTrue (by rw [h])
      | isFalse h => isFalse (fun hh => h (Json.arr.inj hh))
  | .arr _, .obj _ => isFalse (fun h => Json.noConfusion h)
  | .obj _, .null => isFalse (fun h => Json.noConfusion h)
  | .obj _, .bool _ => isFalse (fun h => Json.noConfusion h)
  | .obj _, .num _ => isFalse (fun h => Json.noConfusion h)
  | .obj _, .str _ => isFalse (fun h => Json.noConfusion h)
  | .obj _, .arr _ => isFalse (fun h => Json.noConfusion h)
  | .obj xs, .obj ys =>
      match Json.decEqFields xs ys with
      | isTrue h => isTrue (by rw [h])
      | isFalse h => isFalse (fun hh => h (Json.obj.inj hh))

def Json.decEqList : (xs ys : List Json) → Decidable (xs = ys)
  | [], [] => isTrue rfl
  | [], _ :: _ => isFalse (fun h => List.noConfusion h)
  | _ :: _, [] => isFalse (fun h => List.noConfusion h)
  | x :: xs, y :: ys =>
      match Json.decEq x y with
      | isFalse h => isFalse (fun hh => h (List.cons.inj hh).1)
      | isTrue h1 =>
        match Json.decEqList xs ys with
        | isTrue h2 => isTrue (by rw [h1, h2])
        | isFalse h => isFalse (fun hh => h (List.cons.inj hh).2)

def Json.decEqFields : (xs ys : List (String × Json)) → Decidable (xs = ys)
  | [], [] => isTrue rfl
  | [], _ :: _ => isFalse (fun h => List.noConfusion h)
  | _ :: _, [] => isFalse (fun h => List.noConfusion h)
  | (k1, v1) :: xs, (k2, v2) :: ys =>
      match instDecidableEqString k1 k2 with
      | isFalse h =>
          isFalse (fun hh => h (congrArg Prod.fst (List.cons.inj hh).1))
      | isTrue hk =>
        match Json.decEq v1 v2 with
        | isFalse h =>
            isFalse (fun hh => h (congrArg Prod.snd (List.cons.inj hh).1))
        | isTrue hv =>
          match Json.decEqFields xs ys with
          | isTrue h2 => isTrue (by rw [hk, hv, h2])
          | isFalse h => isFalse (fun hh => h (List.cons.inj hh).2)

end

instance : DecidableEq Json := Json.decEq

/-! ## JS primitives

Field access, assignment and deletion on JS objects, and JS truthiness.
`objSet` models `o[k] = v`: if `k` is already a key its value is replaced
in place (the key keeps its position in insertion order), otherwise the
key is appended at the end.  `objDel` models `delete o[k]` (and also the
post-serialization effect of assigning `undefined` to a field, since
`JSON.stringify` drops `undefined`-valued keys). -/

def objGet (fs : List (String × Json)) (k : String) : Option Json :=
  (fs.find? (fun p => p.1 = k)).map (fun p => p.2)

def objSet (fs : List (String × Json)) (k : String) (v : Json) :
    List (String × Json) :=
  match fs with
  | [] => [(k, v)]
  | (k1, v1) :: rest =>
    if k1 = k then (k, v) :: rest else (k1, v1) :: objSet rest k v

def objDel (fs : List (String × Json)) (k : String) : List (String × Json) :=
  fs.filter (fun p => p.1 ≠ k)

def objHas (fs : List (String × Json)) (k : String) : Bool :=
  fs.any (fun p => p.1 = k)

def objKeys (fs : List (String × Json)) : List String := fs.map Prod.fst

/-- JS truthiness of a value: `null`, `false`, `0` and `""` are falsy;
any array or object (even empty) is truthy. -/
def jsTruthy : Json → Bool
  | .null => false
  | .bool b => b
  | .num n => decide (n ≠ 0)
  | .str s => decide (s ≠ "")
  | .arr _ => true
  | .obj _ => true

/-- Truthiness of a possibly-absent field (`undefined` is falsy). -/
def optTruthy : Option Json → Bool
  | none => false
  | some v => jsTruthy v

/-- Read field `k` of a value (`undefined`, i.e. `none`, on non-objects). -/
def getF (j : Json) (k : String) : Option Json :=
  match j with
  | .obj fs => objGet fs k
  | _ => none

/-- `j[k] = v`.  Assigning a field of a non-object is modelled as the
identity (in the strict-mode source it would throw; no editor operation
reaches that case on a well-formed document). -/
def setF (j : Json) (k : String) (v : Json) : Json :=
  match j with
  | .obj fs => .obj (objSet fs k v)
  | _ => j

/-- `delete j[k]` (identity on non-objects, as for `setF`). -/
def delF (j : Json) (k : String) : Json :=
  match j with
  | .obj fs => .obj (objDel fs k)
  | _ => j

/-! ## Decimal numerals

JS template literals convert non-negative integers to their decimal
representation (`String(12) = "12"`).  We model that conversion directly
so that its injectivity — needed for the freshness of generated property
names — can be proved from first principles. -/

def decDigitsAux : Nat → Nat → List Char
  | 0, _ => []
  | fuel + 1, n =>
      if n < 10 then [Char.ofNat (48 + n)]
      else decDigitsAux fuel (n / 10) ++ [Char.ofNat (48 + n % 10)]

/-- Digits of `n` in base 10, most significant first.  Structural
recursion on a fuel bound (`n / 10 < n`, so `n + 1` steps always
suffice — see `decDigitsAux_fuel`) keeps the definition kernel-reducible. -/
def decDigits (n : Nat) : List Char := decDigitsAux (n + 1) n

/-- Decimal representation of a natural number, as produced by the
JS string conversion in a template literal. -/
def natToDec (n : Nat) : String := String.mk (decDigits n)

/-- Numeric value of a digit character. -/
def digitVal (c : Char) : Nat := c.toNat - 48

/-- Value of a list of digit characters read in base 10. -/
def digitsVal (cs : List Char) : Nat :=
  cs.foldl (fun a c => 10 * a + digitVal c) 0

theorem digitsVal_append_single (cs : List Char) (c : Char) :
    digitsVal (cs ++ [c]) = 10 * digitsVal cs + digitVal c := by
  simp [digitsVal, List.foldl_append]

theorem digitVal_ofNat_digit (d : Nat) (h : d < 10) :
    digitVal (Char.ofNat (48 + d)) = d := by
  interval_cases d <;> rfl

theorem digitsVal_decDigitsAux (fuel n : Nat) (hf : n < fuel) :
    digitsVal (decDigitsAux fuel n) = n := by
  induction fuel generalizing n with
  | zero => omega
  | succ fuel ih =>
    rw [decDigitsAux]
    by_cases h : n < 10
    · simp only [h, if_pos]
      show 10 * 0 + digitVal (Char.ofNat (48 + n)) = n
      rw [digitVal_ofNat_digit n h]
      omega
    · simp only [h, if_neg, not_false_iff]
      rw [digitsVal_append_single]
      rw [ih (n / 10) (by omega)]
      rw [digitVal_ofNat_digit (n % 10) (Nat.mod_lt n (by omega))]
      omega

theorem digitsVal_decDigits (n : Nat) : digitsVal (decDigits n) = n :=
  digitsVal_decDigitsAux (n + 1) n (Nat.lt_succ_self n)

theorem natToDec_injective : Function.Injective natToDec := by
  intro m n h
  have hd : decDigits m = decDigits n := by
    have := congrArg String.data h
    simpa [natToDec] using this
  have := congrArg digitsVal hd
  rwa [digitsVal_decDigits, digitsVal_decDigits] at this

/-! ## Path resolution and path-addressed mutation

Embeds the traversal loop shared by the mutation callbacks of
`src/app/[uuid]/SchemaProperties.tsx` (`addProperty`, `removeProperty`,
`updateProperty`, `renameProperty`, `toggleRequired`).  Each callback deep
copies the root, then if `currentPath` is empty mutates the root itself,
and otherwise iterates over the dot-separated path segments: a segment that
is a key of `current.properties` descends (or, at the last segment, mutates
that child); otherwise, if `current.items` is truthy and the segment is
numeric (`!isNaN(Number(part))`), the mutation is applied to
`current.items` immediately — without descending and regardless of the
segment's position — and the loop continues; otherwise the segment is
skipped and the loop continues. -/

/-- `currentPath.split(".")` — JS `String.prototype.split` with a one
character separator: `""` splits to `[""]`, `"a.b"` to `["a", "b"]`,
adjacent separators produce empty segments. -/
def jsSplitDotAux : List Char → List Char → List String
  | [], acc => [String.mk acc.reverse]
  | c :: cs, acc =>
      if c = '.' then String.mk acc.reverse :: jsSplitDotAux cs []
      else jsSplitDotAux cs (c :: acc)

def jsSplitDot (s : String) : List String := jsSplitDotAux s.data []

/-- JS `String.prototype.trim` (restricted to ASCII whitespace, the only
whitespace that can reach the rename dialog). -/
def jsTrim (s : String) : String :=
  String.mk
    (((s.data.dropWhile Char.isWhitespace).reverse.dropWhile
        Char.isWhitespace).reverse)

/-- `current.properties && part in current.properties`.  A truthy
non-object `properties` would make the JS `in` operator throw; that cannot
arise on a document produced by this editor, and is modelled as `false`. -/
def hasPropChild (node : Json) (p : String) : Bool :=
  match getF node "properties" with
  | some (.obj ps) => objHas ps p
  | _ => false

def getPropChild (node : Json) (p : String) : Json :=
  match getF node "properties" with
  | some (.obj ps) => (objGet ps p).getD .null
  | _ => .null

def setPropChild (node : Json) (p : String) (c : Json) : Json :=
  match getF node "properties" with
  | some (.obj ps) => setF node "properties" (.obj (objSet ps p c))
  | _ => node

/-- `!isNaN(Number(part))`, restricted to the shapes of segment that occur
in editor paths: digit strings and the empty/whitespace-only string are
numeric (JS converts them to `0`); everything else in this model is not.
(JS additionally accepts signed/decimal/hex literals, which cannot occur
as property names navigated to by the editor UI.) -/
def jsNumericStr (s : String) : Bool :=
  s.toList.all Char.isDigit || jsTrim s = ""

/-- `current.items && !isNaN(Number(part))`. -/
def itemsStep (node : Json) (p : String) : Bool :=
  optTruthy (getF node "items") && jsNumericStr p

def getItems (node : Json) : Json := (getF node "items").getD .null

/-- The mutation-at-path loop of the `SchemaProperties.tsx` callbacks,
with `f` the callback-specific mutation of the focus node. -/
def walkMut (f : Json → Json) : Json → List String → Json
  | node, [] => node
  | node, [p] =>
      if hasPropChild node p then setPropChild node p (f (getPropChild node p))
      else if itemsStep node p then setF node "items" (f (getItems node))
      else node
  | node, p :: q :: rest =>
      if hasPropChild node p then
        setPropChild node p (walkMut f (getPropChild node p) (q :: rest))
      else if itemsStep node p then
        walkMut f (setF node "items" (f (getItems node))) (q :: rest)
      else walkMut f node (q :: rest)

/-- Common shape of every mutation callback: empty `currentPath` mutates
the root (the callbacks' `if (!currentPath)` branch duplicates the loop's
focus-node mutation verbatim), otherwise the loop runs on the
dot-separated segments. -/
def applyAtPath (f : Json → Json) (root : Json) (path : String) : Json :=
  if path = "" then f root else walkMut f root (jsSplitDot path)

/-- `getCurrentSchema`: resolves `currentPath` against the root, returning
`none` (JS `null`) when a segment matches neither a property key nor a
numeric items-descent. -/
def resolvePath : Json → List String → Option Json
  | node, [] => some node
  | node, p :: rest =>
      if hasPropChild node p then resolvePath (getPropChild node p) rest
      else if itemsStep node p then resolvePath (getItems node) rest
      else none

def getCurrentSchema (root : Json) (path : String) : Option Json :=
  if path = "" then some root else resolvePath root (jsSplitDot path)

/-! ## `SchemaProperties.tsx` mutation operations -/

/-- `TYPE_ALLOWED_PROPERTIES` of `SchemaProperties.tsx` (no `null` kind);
unknown kinds (which the type `Select` never produces) map to `[]`. -/
def TYPE_ALLOWED_PROPERTIES (t : String) : List String :=
  if t = "string" then
    ["title", "description", "default", "enum", "minLength", "maxLength",
     "pattern", "format"]
  else if t = "number" then
    ["title", "description", "default", "minimum", "maximum",
     "exclusiveMinimum", "exclusiveMaximum", "multipleOf"]
  else if t = "integer" then
    ["title", "description", "default", "minimum", "maximum",
     "exclusiveMinimum", "exclusiveMaximum", "multipleOf"]
  else if t = "boolean" then ["title", "description", "default"]
  else if t = "object" then
    ["title", "description", "properties", "required",
     "additionalProperties"]
  else if t = "array" then
    ["title", "description", "items", "minItems", "maxItems", "uniqueItems"]
  else []

/-- `cleanupPropertiesForType` (SchemaProperties.tsx, lines 1327-1344):
deletes every field not allowed for the new type (keeping `"type"`), then
seeds `properties = {}` for `object` and `items = {type: "string"}` for
`array` when the respective field is not already truthy. -/
def cleanupPropertiesForType (propObj : Json) (newType : String) : Json :=
  let cleaned :=
    match propObj with
    | .obj fs =>
        Json.obj (fs.filter (fun p =>
          p.1 = "type" || (TYPE_ALLOWED_PROPERTIES newType).contains p.1))
    | j => j
  let cleaned :=
    if newType = "object" ∧ optTruthy (getF cleaned "properties") = false then
      setF cleaned "properties" (.obj [])
    else cleaned
  if newType = "array" ∧ optTruthy (getF cleaned "items") = false then
    setF cleaned "items" (.obj [("type", .str "string")])
  else cleaned

/-- Focus-node mutation of `addProperty`: seed `properties` when falsy,
then insert `newProperty{count+1}` (count = current number of keys) with
value `{type: "string"}`. -/
def addPropertyMut (node : Json) : Json :=
  let node1 :=
    if optTruthy (getF node "properties") then node
    else setF node "properties" (.obj [])
  match getF node1 "properties" with
  | some (.obj ps) =>
      let newPropName := "newProperty" ++ natToDec (ps.length + 1)
      setF node1 "properties"
        (.obj (objSet ps newPropName (.obj [("type", .str "string")])))
  | _ => node1

def addProperty (root : Json) (path : String) : Json :=
  applyAtPath addPropertyMut root path

/-- Focus-node mutation of `removeProperty`: delete `key` from
`properties` when present; independently, filter `key` out of `required`
whenever `required` is an array (a truthy non-array would make the JS
`.filter` call throw; modelled as a no-op, unreachable for editor
documents). -/
def removePropertyMut (key : String) (node : Json) : Json :=
  let node1 :=
    match getF node "properties" with
    | some (.obj ps) =>
        if objHas ps key then setF node "properties" (.obj (objDel ps key))
        else node
    | _ => node
  match getF node1 "required" with
  | some (.arr rs) =>
      setF node1 "required" (.arr (rs.filter (fun r => r ≠ .str key)))
  | _ => node1

def removeProperty (root : Json) (path : String) (key : String) : Json :=
  applyAtPath (removePropertyMut key) root path

/-- Focus-node mutation of `updateProperty` (key, field, value): only acts
when `key` is a property of the focus node.  `value = none` models the JS
`undefined` sentinel and deletes the field; otherwise, when
`field = "type"`, the child is first passed through
`cleanupPropertiesForType` (the type `Select` only ever supplies string
values) and then the field is assigned. -/
def updatePropertyMut (key field : String) (value : Option Json)
    (node : Json) : Json :=
  match getF node "properties" with
  | some (.obj ps) =>
    if objHas ps key then
      let child := (objGet ps key).getD .null
      match value with
      | none => setF node "properties" (.obj (objSet ps key (delF child field)))
      | some v =>
          let child1 :=
            if field = "type" then
              match v with
              | .str t => cleanupPropertiesForType child t
              | _ => child
            else child
          setF node "properties" (.obj (objSet ps key (setF child1 field v)))
    else node
  | _ => node

def updateProperty (root : Json) (path : String) (key field : String)
    (value : Option Json) : Json :=
  let value := if field = "title" ∧ value = some (.str "") then none else value
  applyAtPath (updatePropertyMut key field value) root path

/-- The `newProperties` object built by the rename loop of
`renameProperty`: each entry is written back under its own key, except
`oldKey`'s entry which is written under `newKey` (JS object assignment:
an already-present key keeps its position and gets the new value, a fresh
key is appended — see `objSet`). -/
def renameBuild (oldKey newKey : String) (ps : List (String × Json)) :
    List (String × Json) :=
  ps.foldl (fun acc p => objSet acc (if p.1 = oldKey then newKey else p.1) p.2)
    []

def renamePropertyMut (oldKey newKey : String) (node : Json) : Json :=
  match getF node "properties" with
  | some (.obj ps) =>
    if objHas ps oldKey then
      let ps1 := renameBuild oldKey newKey ps
      let node1 := setF node "properties" (.obj ps1)
      match getF node1 "required" with
      | some (.arr rs) =>
          setF node1 "required"
            (.arr (rs.map (fun r => if r = .str oldKey then .str newKey else r)))
      | _ => node1
    else node
  | _ => node

def renameProperty (root : Json) (path : String) (oldKey newKey : String) :
    Json :=
  if oldKey = newKey ∨ jsTrim newKey = "" then root
  else applyAtPath (renamePropertyMut oldKey newKey) root path

/-- Removes the first occurrence of `t` (JS `indexOf` + `splice(idx, 1)`). -/
def eraseFirst : List Json → Json → List Json
  | [], _ => []
  | x :: xs, t => if x = t then xs else x :: eraseFirst xs t

/-- Focus-node mutation of `toggleRequired`: seed `required = []` when
falsy, then remove `key` if present (first occurrence) or push it.  The
key is not checked against `properties`. -/
def toggleRequiredMut (key : String) (node : Json) : Json :=
  let node1 :=
    if optTruthy (getF node "required") then node
    else setF node "required" (.arr [])
  match getF node1 "required" with
  | some (.arr rs) =>
      if (Json.str key) ∈ rs then
        setF node1 "required" (.arr (eraseFirst rs (.str key)))
      else setF node1 "required" (.arr (rs ++ [.str key]))
  | _ => node1

def toggleRequired (root : Json) (path : String) (key : String) : Json :=
  applyAtPath (toggleRequiredMut key) root path

/-! ## `page.tsx` `SchemaEditor` handlers (root-level variants) -/

/-- `TYPE_ALLOWED_PROPERTIES` of `page.tsx` — same table plus the `null`
kind. -/
def pageTypeAllowedProperties (t : String) : List String :=
  if t = "null" then ["title", "description"] else TYPE_ALLOWED_PROPERTIES t

/-- The `while (newPropName in newSchema.properties) newPropName =
property${++i}` search of `handleAddProperty`, starting at `i`, with
explicit fuel (the JS loop is unbounded; `handleAddProperty` supplies
enough fuel for the loop to exit at the first fresh name, see
`freshAux_spec`). -/
def freshAux (keys : List String) : Nat → Nat → Nat
  | 0, i => i
  | fuel + 1, i =>
      if ("property" ++ natToDec i) ∈ keys then freshAux keys fuel (i + 1)
      else i

/-- `handleAddProperty` (page.tsx, lines 1016-1029): seeds `properties`
when falsy and inserts `property{n}` for the first `n ≥ 1` whose name is
not already a key, with value `{type: "string"}`. -/
def handleAddProperty (root : Json) : Json :=
  let root1 :=
    if optTruthy (getF root "properties") then root
    else setF root "properties" (.obj [])
  match getF root1 "properties" with
  | some (.obj ps) =>
      let n := freshAux (objKeys ps) (ps.length + 1) 1
      setF root1 "properties"
        (.obj (objSet ps ("property" ++ natToDec n) (.obj [("type", .str "string")])))
  | _ => root1

/-- `handleRemoveProperty` (page.tsx, lines 1032-1051): deletes the key,
filters it out of `required`, and deletes `required` entirely when the
filtered list is empty. -/
def handleRemoveProperty (root : Json) (key : String) : Json :=
  match getF root "properties" with
  | some (.obj ps) =>
    if objHas ps key then
      let root1 := setF root "properties" (.obj (objDel ps key))
      match getF root1 "required" with
      | some (.arr rs) =>
          let rs1 := rs.filter (fun r => r ≠ .str key)
          if rs1.length = 0 then delF root1 "required"
          else setF root1 "required" (.arr rs1)
      | _ => root1
    else root
  | _ => root

/-- `handleRenameProperty` (page.tsx, lines 1069-1093): same rebuild as
the root branch of `SchemaProperties.tsx`'s `renameProperty`, with no
guard on `newKey`. -/
def handleRenameProperty (root : Json) (oldKey newKey : String) : Json :=
  renamePropertyMut oldKey newKey root

/-- `handleToggleRequired` (page.tsx, lines 1096-1118): like
`toggleRequiredMut`, but deletes `required` when removal empties it. -/
def handleToggleRequired (root : Json) (key : String) : Json :=
  let root1 :=
    if optTruthy (getF root "required") then root
    else setF root "required" (.arr [])
  match getF root1 "required" with
  | some (.arr rs) =>
      if (Json.str key) ∈ rs then
        let rs1 := eraseFirst rs (.str key)
        if rs1.length = 0 then delF root1 "required"
        else setF root1 "required" (.arr rs1)
      else setF root1 "required" (.arr (rs ++ [.str key]))
  | _ => root1

/-- `handleUpdateProperty`'s merge `{ ...node, ...updates }`, where an
entry mapped to `none` models an `undefined`-valued update (present in the
spread result but dropped by `JSON.stringify`, hence a deletion in the
document model; an existing key assigned a value keeps its position). -/
def mergeUpdates (node : Json) (updates : List (String × Option Json)) :
    Json :=
  updates.foldl
    (fun n u =>
      match u.2 with
      | some v => setF n u.1 v
      | none => delF n u.1)
    node

/-- The `updates` object built by the type `Select`'s `onValueChange`
(page.tsx, lines 394-425): `{type: newType}`, then `undefined` for every
key of the node outside `{type, title, description} ∪ allowed(newType)`
(in node key order), then the `object` seeding of `properties = {}` and
`additionalProperties = false` when the node has no truthy `properties`,
then `items = undefined` for `array`. -/
def typeChangeUpdates (node : Json) (newType : String) :
    List (String × Option Json) :=
  let dels :=
    match node with
    | .obj fs =>
        fs.filterMap (fun p =>
          if p.1 ≠ "type" ∧ p.1 ≠ "title" ∧ p.1 ≠ "description" ∧
              (pageTypeAllowedProperties newType).contains p.1 = false then
            some (p.1, (none : Option Json))
          else none)
    | _ => []
  let seedObj :=
    if newType = "object" ∧ optTruthy (getF node "properties") = false then
      [("properties", some (Json.obj [])),
       ("additionalProperties", some (Json.bool false))]
    else []
  let seedArr :=
    if newType = "array" then [("items", (none : Option Json))] else []
  [("type", some (Json.str newType))] ++ dels ++ seedObj ++ seedArr

/-- The node after the page.tsx type-change handler: the `onUpdate`
callback merges the updates into the node via `handleUpdateProperty`. -/
def pageTypeChange (node : Json) (newType : String) : Json :=
  mergeUpdates node (typeChangeUpdates node newType)

/-! ## Dirty tracking and navigation -/

/-- `setLastSavedSchema(JSON.parse(JSON.stringify(schema)))`: the snapshot
is a deep structural copy, i.e. the identity on the document model. -/
def markSaved (doc : Json) : Json := doc

/-- `hasUnsavedChanges` (SchemaProperties.tsx, lines 1182-1185): false
when either state is falsy (unloaded), else
`JSON.stringify(schema) !== JSON.stringify(lastSavedSchema)`.
`JSON.stringify` is injective on documents produced by `JSON.parse`
(object key order is preserved and serialized in order), so string
inequality is structural, order-sensitive inequality in the model. -/
def hasUnsavedChanges (schema lastSavedSchema : Option Json) : Bool :=
  if optTruthy lastSavedSchema = false ∨ optTruthy schema = false then false
  else decide (schema ≠ lastSavedSchema)

structure Breadcrumb where
  path : String
  label : String
deriving DecidableEq

structure NavState where
  pathHistory : List Breadcrumb
  currentPath : String
deriving DecidableEq

/-- The initial navigation state: a single root breadcrumb. -/
def initialNav : NavState := ⟨[⟨"", "Root"⟩], ""⟩

/-- `navigateToPath` (SchemaProperties.tsx, lines 1699-1710): if some
breadcrumb already has this path, truncate the history to it (inclusive);
otherwise append; either way focus moves to `path`. -/
def navigateToPath (st : NavState) (path label : String) : NavState :=
  match st.pathHistory.findIdx? (fun item => item.path = path) with
  | some i => ⟨st.pathHistory.take (i + 1), path⟩
  | none => ⟨st.pathHistory ++ [⟨path, label⟩], path⟩

/-! ## Toolkit lemmas about the JS object primitives -/

theorem objGet_nil (k : String) : objGet [] k = none := rfl

theorem objGet_cons (k1 : String) (v1 : Json) (fs : List (String × Json))
    (k : String) :
    objGet ((k1, v1) :: fs) k =
      if k1 = k then some v1 else objGet fs k := by
  by_cases h : k1 = k <;> simp [objGet, List.find?, h]

theorem objGet_objSet_self (fs : List (String × Json)) (k : String)
    (v : Json) : objGet (objSet fs k v) k = some v := by
  induction fs with
  | nil => simp [objSet, objGet_cons]
  | cons p rest ih =>
    obtain ⟨k1, v1⟩ := p
    by_cases h : k1 = k <;> simp [objSet, h, objGet_cons, ih]

theorem objGet_objSet_ne (fs : List (String × Json)) (k k' : String)
    (v : Json) (h : k' ≠ k) :
    objGet (objSet fs k v) k' = objGet fs k' := by
  induction fs with
  | nil => simp [objSet, objGet_cons, objGet_nil, Ne.symm h]
  | cons p rest ih =>
    obtain ⟨k1, v1⟩ := p
    by_cases h1 : k1 = k
    · subst h1
      simp [objSet, objGet_cons, Ne.symm h]
    · simp [objSet, h1, objGet_cons, ih]

theorem objGet_objDel_self (fs : List (String × Json)) (k : String) :
    objGet (objDel fs k) k = none := by
  induction fs with
  | nil => rfl
  | cons p rest ih =>
    obtain ⟨k1, v1⟩ := p
    by_cases h : k1 = k
    · simpa [objDel, List.filter, h] using ih
    · simpa [objDel, List.filter, h, objGet_cons] using ih

theorem objGet_objDel_ne (fs : List (String × Json)) (k k' : String)
    (h : k' ≠ k) : objGet (objDel fs k) k' = objGet fs k' := by
  induction fs with
  | nil => rfl
  | cons p rest ih =>
    obtain ⟨k1, v1⟩ := p
    by_cases h1 : k1 = k
    · subst h1
      simpa [objDel, List.filter, objGet_cons, Ne.symm h] using ih
    · by_cases h2 : k1 = k'
      · subst h2
        simp [objDel, List.filter, h1, objGet_cons]
      · simpa [objDel, List.filter, h1, objGet_cons, h2] using ih

theorem objKeys_nil : objKeys [] = [] := rfl

theorem objKeys_cons (k1 : String) (v1 : Json) (fs : List (String × Json)) :
    objKeys ((k1, v1) :: fs) = k1 :: objKeys fs := rfl

theorem objKeys_append (l1 l2 : List (String × Json)) :
    objKeys (l1 ++ l2) = objKeys l1 ++ objKeys l2 := by
  simp [objKeys]

theorem objHas_iff (fs : List (String × Json)) (k : String) :
    objHas fs k = true ↔ k ∈ objKeys fs := by
  induction fs with
  | nil => simp [objHas, objKeys_nil]
  | cons p rest ih =>
    obtain ⟨k1, v1⟩ := p
    rw [objKeys_cons]
    by_cases h : k1 = k
    · simp [objHas, h]
    · simp only [objHas, List.any_cons, decide_eq_true_eq, h, false_or,
        Bool.false_or, List.mem_cons]
      rw [← objHas]
      simp [ih, Ne.symm h]

theorem objGet_eq_none_iff (fs : List (String × Json)) (k : String) :
    objGet fs k = none ↔ k ∉ objKeys fs := by
  induction fs with
  | nil => simp [objGet_nil, objKeys_nil]
  | cons p rest ih =>
    obtain ⟨k1, v1⟩ := p
    rw [objKeys_cons, objGet_cons]
    by_cases h : k1 = k
    · simp [h]
    · simp [h, ih, Ne.symm h]

theorem objGet_mem (fs : List (String × Json)) (k : String) (v : Json)
    (h : objGet fs k = some v) : (k, v) ∈ fs := by
  induction fs with
  | nil => simp [objGet_nil] at h
  | cons p rest ih =>
    obtain ⟨k1, v1⟩ := p
    by_cases h1 : k1 = k
    · subst h1
      simp [objGet_cons] at h
      simp [h]
    · simp [objGet_cons, h1] at h
      exact List.mem_cons_of_mem _ (ih h)

theorem objSet_of_not_mem (fs : List (String × Json)) (k : String)
    (v : Json) (h : k ∉ objKeys fs) : objSet fs k v = fs ++ [(k, v)] := by
  induction fs with
  | nil => rfl
  | cons p rest ih =>
    obtain ⟨k1, v1⟩ := p
    rw [objKeys_cons] at h
    simp only [List.mem_cons, not_or] at h
    simp [objSet, Ne.symm h.1, ih h.2]

theorem objSet_mid (l1 l2 : List (String × Json)) (k : String)
    (v0 v : Json) (h : k ∉ objKeys l1) :
    objSet (l1 ++ (k, v0) :: l2) k v = l1 ++ (k, v) :: l2 := by
  induction l1 with
  | nil => simp [objSet]
  | cons p rest ih =>
    obtain ⟨k1, v1⟩ := p
    rw [objKeys_cons] at h
    simp only [List.mem_cons, not_or] at h
    simp [objSet, Ne.symm h.1, ih h.2]

theorem objKeys_objSet_of_mem (fs : List (String × Json)) (k : String)
    (v : Json) (h : k ∈ objKeys fs) :
    objKeys (objSet fs k v) = objKeys fs := by
  induction fs with
  | nil => simp [objKeys_nil] at h
  | cons p rest ih =>
    obtain ⟨k1, v1⟩ := p
    by_cases h1 : k1 = k
    · simp [objSet, h1, objKeys_cons]
    · rw [objKeys_cons] at h
      rcases List.mem_cons.mp h with h2 | h2
    --  first case contradicts h1
      · exact absurd h2.symm h1
      · simp [objSet, h1, objKeys_cons, ih h2]

theorem mem_objKeys_objSet (fs : List (String × Json)) (k k' : String)
    (v : Json) (h : k' ∈ objKeys fs) : k' ∈ objKeys (objSet fs k v) := by
  induction fs with
  | nil => simp [objKeys_nil] at h
  | cons p rest ih =>
    obtain ⟨k1, v1⟩ := p
    rw [objKeys_cons] at h
    rcases List.mem_cons.mp h with h2 | h2
    · subst h2
      by_cases h1 : k' = k
      · subst h1
        simp [objSet, objKeys_cons]
      · simp [objSet, h1, objKeys_cons]
    · by_cases h1 : k1 = k
      · subst h1
        simp [objSet, objKeys_cons, h2]
      · simp [objSet, h1, objKeys_cons]
        exact Or.inr (ih h2)

theorem self_mem_objKeys_objSet (fs : List (String × Json)) (k : String)
    (v : Json) : k ∈ objKeys (objSet fs k v) := by
  induction fs with
  | nil => simp [objSet, objKeys_cons]
  | cons p rest ih =>
    obtain ⟨k1, v1⟩ := p
    by_cases h1 : k1 = k <;> simp [objSet, h1, objKeys_cons, ih]

theorem mem_objKeys_objDel (fs : List (String × Json)) (k k' : String)
    (h : k' ∈ objKeys (objDel fs k)) : k' ∈ objKeys fs :=
  ((List.filter_sublist fs).map Prod.fst).subset h

theorem objSet_eq_of_objGet (fs : List (String × Json)) (k : String)
    (v : Json) (h : objGet fs k = some v) : objSet fs k v = fs := by
  induction fs with
  | nil => simp [objGet_nil] at h
  | cons p rest ih =>
    obtain ⟨k1, v1⟩ := p
    by_cases h1 : k1 = k
    · subst h1
      simp [objGet_cons] at h
      simp [objSet, h]
    · simp [objGet_cons, h1] at h
      simp [objSet, h1, ih h]

/-! ## Concrete documents used by witnesses and counterexamples -/

/-- Scenario B document: an object with one non-required `age` property. -/
def docAge : Json :=
  .obj [("type", .str "object"),
        ("properties", .obj [("age", .obj [("type", .str "number")])])]

/-- An object whose only property is already named `newProperty2`. -/
def docNewProp2 : Json :=
  .obj [("type", .str "object"),
        ("properties", .obj [("newProperty2", .obj [("type", .str "number")])])]

/-- Scenario A document: the root `{type: "object", properties: {}}`. -/
def docEmptyObj : Json := .obj [("type", .str "object"), ("properties", .obj [])]

/-- An object with three properties `a`, `b`, `c` in that order. -/
def docAbc : Json :=
  .obj [("type", .str "object"),
        ("properties", .obj [("a", .num 1), ("b", .num 2), ("c", .num 3)])]

/-- An object with one required property `a`. -/
def docReqA : Json :=
  .obj [("type", .str "object"),
        ("properties", .obj [("a", .obj [("type", .str "string")])]),
        ("required", .arr [.str "a"])]

/-- An object whose property `k` is a string node with a `minLength` and a
`title` (the P3 example). -/
def docP3 : Json :=
  .obj [("type", .str "object"),
        ("properties", .obj [("k", .obj [("type", .str "string"),
                                         ("minLength", .num 3),
                                         ("title", .str "T")])])]

/-- An object whose property `k` is a bare string node. -/
def docKStr : Json :=
  .obj [("type", .str "object"),
        ("properties", .obj [("k", .obj [("type", .str "string")])])]

/-- A document with a property `b` that itself has a property `x`; used to
exhibit a non-resolving focus path that still mutates. -/
def docDeep : Json :=
  .obj [("type", .str "object"),
        ("properties", .obj [("b",
          .obj [("type", .str "object"),
                ("properties", .obj [("x", .obj [("type", .str "string")])])])])]

/-! ## C8 — dirty tracking -/

/-- **C8**: immediately after `markSaved(doc)` the dirty flag is false;
any structurally different document is flagged dirty against that
snapshot; re-snapshotting the changed document clears the flag; and in
general `hasUnsavedChanges` is true exactly on structural (order-sensitive)
inequality.  The truthiness hypotheses reflect the guard
`if (!lastSavedSchema || !schema) return false` — both states hold actual
(truthy) documents once a schema is loaded. -/
theorem C8_dirty_tracking (doc doc' : Json) (hdoc : jsTruthy doc = true)
    (hdoc' : jsTruthy doc' = true) :
    hasUnsavedChanges (some doc) (some (markSaved doc)) = false ∧
    (doc' ≠ doc → hasUnsavedChanges (some doc') (some (markSaved doc)) = true) ∧
    hasUnsavedChanges (some doc') (some (markSaved doc')) = false ∧
    (hasUnsavedChanges (some doc') (some doc) = true ↔ doc' ≠ doc) := by
  refine ⟨?_, ?_, ?_, ?_⟩
  · simp [hasUnsavedChanges, markSaved, optTruthy, hdoc]
  · intro h
    simp [hasUnsavedChanges, markSaved, optTruthy, hdoc, hdoc', h]
  · simp [hasUnsavedChanges, markSaved, optTruthy, hdoc']
  · simp [hasUnsavedChanges, optTruthy, hdoc, hdoc']

/-- Witness for C8 at the concrete documents `docAge` (saved) and
`docEmptyObj` (edited). -/
theorem C8_dirty_tracking_witness :
    hasUnsavedChanges (some docAge) (some (markSaved docAge)) = false ∧
    hasUnsavedChanges (some docEmptyObj) (some (markSaved docAge)) = true ∧
    hasUnsavedChanges (some docEmptyObj) (some (markSaved docEmptyObj)) = false :=
  ⟨(C8_dirty_tracking docAge docEmptyObj (by decide) (by decide)).1,
   (C8_dirty_tracking docAge docEmptyObj (by decide) (by decide)).2.1
     (by decide),
   (C8_dirty_tracking docAge docEmptyObj (by decide) (by decide)).2.2.1⟩

/-! ## C9 — breadcrumb navigation -/

/-- **C9**: `navigateToPath` truncates the breadcrumb list (inclusive) at
an existing entry with the requested path and otherwise appends a new
entry; in both cases focus moves to the path.  The last conjunct is
Scenario D with the code's dotted-string paths (`["properties","a"]` is
`"a"`, `["properties","a","properties","b"]` is `"a.b"`): navigating to
`a`, then `a.b`, then back to `a` leaves exactly `[Root, A]`. -/
theorem C9_navigate (st : NavState) (path label : String) :
    (∀ i, st.pathHistory.findIdx? (fun item => item.path = path) = some i →
        navigateToPath st path label = ⟨st.pathHistory.take (i + 1), path⟩) ∧
    (st.pathHistory.findIdx? (fun item => item.path = path) = none →
        navigateToPath st path label =
          ⟨st.pathHistory ++ [⟨path, label⟩], path⟩) ∧
    (st.pathHistory.findIdx? (fun item => item.path = path) = none ↔
        ∀ b ∈ st.pathHistory, b.path ≠ path) ∧
    navigateToPath (navigateToPath (navigateToPath initialNav "a" "A")
        "a.b" "B") "a" "" = ⟨[⟨"", "Root"⟩, ⟨"a", "A"⟩], "a"⟩ := by
  refine ⟨?_, ?_, ?_, by decide⟩
  · intro i hi
    simp [navigateToPath, hi]
  · intro hi
    simp [navigateToPath, hi]
  · rw [List.findIdx?_eq_none_iff]
    simp

/-- Witness for C9: a fresh path is appended (and focus moves), and a
repeated path truncates, at concrete navigation states. -/
theorem C9_navigate_witness :
    navigateToPath initialNav "x" "X" =
      ⟨initialNav.pathHistory ++ [⟨"x", "X"⟩], "x"⟩ ∧
    navigateToPath ⟨[⟨"", "Root"⟩, ⟨"x", "X"⟩], "x"⟩ "" "ignored" =
      ⟨([⟨"", "Root"⟩, ⟨"x", "X"⟩] : List Breadcrumb).take 1, ""⟩ :=
  ⟨(C9_navigate initialNav "x" "X").2.1 (by decide),
   (C9_navigate ⟨[⟨"", "Root"⟩, ⟨"x", "X"⟩], "x"⟩ "" "ignored").1 0 (by decide)⟩

/-! ## C2 — toggleRequired -/

theorem getF_obj (fs : List (String × Json)) (k : String) :
    getF (.obj fs) k = objGet fs k := rfl

theorem setF_obj (fs : List (String × Json)) (k : String) (v : Json) :
    setF (.obj fs) k v = .obj (objSet fs k v) := rfl

theorem delF_obj (fs : List (String × Json)) (k : String) :
    delF (.obj fs) k = .obj (objDel fs k) := rfl

/-- **C2 (counterexample)**: Scenario B on `SchemaProperties.tsx`'s
`toggleRequired`: after toggling `age` on and off again, `required` is the
empty array `[]` — it is present, not absent as the claim states. -/
theorem C2_counterexample :
    getF (toggleRequired (toggleRequired docAge "" "age") "" "age")
        "required" = some (.arr []) ∧
    getF (toggleRequired (toggleRequired docAge "" "age") "" "age")
        "required" ≠ none := by
  exact ⟨by decide, by decide⟩

/-- **C2 (amended)**: toggling a non-required key first yields
`required = [k]` in both variants; toggling again leaves the *empty array*
`required = []` in `SchemaProperties.tsx`'s `toggleRequired` (it never
canonicalizes), whereas `page.tsx`'s `handleToggleRequired` deletes the
field, canonicalizing the empty set to absent.  The last two conjuncts
state the general removal behavior of each variant: the SP variant always
leaves the filtered array in place, the page variant unsets `required`
exactly when removal empties it. -/
theorem C2_toggle_required_amended (fs : List (String × Json)) (k : String)
    (hreq : objGet fs "required" = none) :
    getF (toggleRequired (Json.obj fs) "" k) "required" =
      some (.arr [.str k]) ∧
    getF (toggleRequired (toggleRequired (Json.obj fs) "" k) "" k)
      "required" = some (.arr []) ∧
    getF (handleToggleRequired (Json.obj fs) k) "required" =
      some (.arr [.str k]) ∧
    getF (handleToggleRequired (handleToggleRequired (Json.obj fs) k) k)
      "required" = none ∧
    (∀ gs rs, objGet gs "required" = some (.arr rs) → (Json.str k) ∈ rs →
      getF (toggleRequired (Json.obj gs) "" k) "required" =
        some (.arr (eraseFirst rs (.str k)))) ∧
    (∀ gs rs, objGet gs "required" = some (.arr rs) → (Json.str k) ∈ rs →
      eraseFirst rs (.str k) = [] →
      getF (handleToggleRequired (Json.obj gs) k) "required" = none) := by
  have h1 : getF (toggleRequired (Json.obj fs) "" k) "required" =
      some (.arr [.str k]) := by
    simp [toggleRequired, applyAtPath, toggleRequiredMut, getF_obj, setF_obj,
      hreq, optTruthy, objGet_objSet_self, jsTruthy, eraseFirst]
  refine ⟨h1, ?_, ?_, ?_, ?_, ?_⟩
  · have hshape : toggleRequired (Json.obj fs) "" k =
        .obj (objSet (objSet fs "required" (.arr [])) "required"
          (.arr [.str k])) := by
      simp [toggleRequired, applyAtPath, toggleRequiredMut, getF_obj,
        setF_obj, hreq, optTruthy, objGet_objSet_self, jsTruthy]
    rw [hshape]
    simp [toggleRequired, applyAtPath, toggleRequiredMut, getF_obj, setF_obj,
      optTruthy, objGet_objSet_self, jsTruthy, eraseFirst]
  · simp [handleToggleRequired, getF_obj, setF_obj, hreq, optTruthy,
      objGet_objSet_self, jsTruthy, eraseFirst]
  · have hshape : handleToggleRequired (Json.obj fs) k =
        .obj (objSet (objSet fs "required" (.arr [])) "required"
          (.arr [.str k])) := by
      simp [handleToggleRequired, getF_obj, setF_obj, hreq, optTruthy,
        objGet_objSet_self, jsTruthy]
    rw [hshape]
    simp [handleToggleRequired, getF_obj, setF_obj, delF_obj, optTruthy,
      objGet_objSet_self, objGet_objDel_self, jsTruthy, eraseFirst]
  · intro gs rs hgs hmem
    simp [toggleRequired, applyAtPath, toggleRequiredMut, getF_obj, setF_obj,
      hgs, optTruthy, objGet_objSet_self, jsTruthy, hmem]
  · intro gs rs hgs hmem hempty
    simp [handleToggleRequired, getF_obj, setF_obj, delF_obj, hgs, optTruthy,
      objGet_objSet_self, objGet_objDel_self, jsTruthy, hmem, hempty]

/-- Witness for C2 (amended) at Scenario B's document. -/
theorem C2_toggle_required_amended_witness :
    getF (toggleRequired docAge "" "age") "required" =
      some (.arr [.str "age"]) ∧
    getF (toggleRequired (toggleRequired docAge "" "age") "" "age")
      "required" = some (.arr []) ∧
    getF (handleToggleRequired docAge "age") "required" =
      some (.arr [.str "age"]) ∧
    getF (handleToggleRequired (handleToggleRequired docAge "age") "age")
      "required" = none :=
  ⟨(C2_toggle_required_amended _ "age" (by decide)).1,
   (C2_toggle_required_amended _ "age" (by decide)).2.1,
   (C2_toggle_required_amended _ "age" (by decide)).2.2.1,
   (C2_toggle_required_amended _ "age" (by decide)).2.2.2.1⟩

/-! ## C5 — removeProperty -/

/-- **C5 (counterexample)**: removing the only required property `a` with
`SchemaProperties.tsx`'s `removeProperty` leaves `required: []` in the
document — the field is not unset as the claim states. -/
theorem C5_counterexample :
    removeProperty docReqA "" "a" =
      .obj [("type", .str "object"), ("properties", .obj []),
            ("required", .arr [])] ∧
    getF (removeProperty docReqA "" "a") "required" ≠ none := by
  exact ⟨by decide, by decide⟩

/-- **C5 (amended)**: both variants delete `k` from `properties` and
filter it out of `required` in the same operation; but only `page.tsx`'s
`handleRemoveProperty` unsets `required` when the filtered list is empty —
`SchemaProperties.tsx`'s `removeProperty` always keeps the (possibly
empty) filtered array. -/
theorem C5_remove_property_amended (fs ps : List (String × Json))
    (rs : List Json) (k : String)
    (hp : objGet fs "properties" = some (.obj ps))
    (hk : objHas ps k = true)
    (hr : objGet fs "required" = some (.arr rs)) :
    getF (removeProperty (Json.obj fs) "" k) "properties" =
      some (.obj (objDel ps k)) ∧
    getF (removeProperty (Json.obj fs) "" k) "required" =
      some (.arr (rs.filter (fun r => r ≠ .str k))) ∧
    getF (handleRemoveProperty (Json.obj fs) k) "properties" =
      some (.obj (objDel ps k)) ∧
    getF (handleRemoveProperty (Json.obj fs) k) "required" =
      (if (rs.filter (fun r => r ≠ .str k)).length = 0 then none
       else some (.arr (rs.filter (fun r => r ≠ .str k)))) := by
  have hne1 : ("required" : String) ≠ "properties" := by decide
  have hne2 : ("properties" : String) ≠ "required" := by decide
  refine ⟨?_, ?_, ?_, ?_⟩
  · simp [removeProperty, applyAtPath, removePropertyMut, getF_obj, setF_obj,
      hp, hk, objGet_objSet_ne _ _ _ _ hne1, hr, objGet_objSet_self,
      objGet_objSet_ne _ _ _ _ hne2]
  · simp [removeProperty, applyAtPath, removePropertyMut, getF_obj, setF_obj,
      hp, hk, objGet_objSet_ne _ _ _ _ hne1, hr, objGet_objSet_self]
  · simp only [handleRemoveProperty, getF_obj, hp, hk, setF_obj, delF_obj,
      objGet_objSet_ne _ _ _ _ hne1, hr, if_true]
    split
    · simp [getF_obj, objGet_objDel_ne _ _ _ hne2, objGet_objSet_self]
    · simp [getF_obj, objGet_objSet_ne _ _ _ _ hne2, objGet_objSet_self]
  · simp only [handleRemoveProperty, getF_obj, hp, hk, setF_obj, delF_obj,
      objGet_objSet_ne _ _ _ _ hne1, hr, if_true]
    split
    · simp [getF_obj, objGet_objDel_self]
    · simp [getF_obj, objGet_objSet_self]

/-- Witness for C5 (amended) at the document with one required property. -/
theorem C5_remove_property_amended_witness :
    getF (removeProperty docReqA "" "a") "properties" = some (.obj []) ∧
    getF (removeProperty docReqA "" "a") "required" = some (.arr []) ∧
    getF (handleRemoveProperty docReqA "a") "properties" = some (.obj []) ∧
    getF (handleRemoveProperty docReqA "a") "required" = none := by
  have h := C5_remove_property_amended
    [("type", .str "object"),
     ("properties", .obj [("a", .obj [("type", .str "string")])]),
     ("required", .arr [.str "a"])]
    [("a", .obj [("type", .str "string")])] [.str "a"] "a"
    (by decide) (by decide) (by decide)
  exact ⟨h.1, h.2.1, h.2.2.1, by simpa using h.2.2.2⟩

/-! ## C3 — addProperty name generation -/

/-- The `property${i}` name generated by `handleAddProperty`. -/
def propName (i : Nat) : String := "property" ++ natToDec i

theorem propName_injective : Function.Injective propName := by
  intro a b h
  have hd := congrArg String.data h
  simp only [propName, String.data_append] at hd
  exact natToDec_injective (String.ext (List.append_cancel_left hd))

/-- The while-loop search finds the least index at or after `i` whose name
is unused, provided one exists within the fuel window. -/
theorem freshAux_spec (keys : List String) (fuel : Nat) :
    ∀ i, (∃ j, i ≤ j ∧ j < i + fuel ∧ propName j ∉ keys) →
      propName (freshAux keys fuel i) ∉ keys ∧
      i ≤ freshAux keys fuel i ∧
      ∀ m, i ≤ m → m < freshAux keys fuel i → propName m ∈ keys := by
  induction fuel with
  | zero =>
    intro i h
    obtain ⟨j, hj1, hj2, _⟩ := h
    omega
  | succ fuel ih =>
    intro i h
    by_cases hi : propName i ∈ keys
    · have hi2 : ("property" ++ natToDec i) ∈ keys := hi
      have hstep : freshAux keys (fuel + 1) i = freshAux keys fuel (i + 1) := by
        rw [freshAux, if_pos hi2]
      obtain ⟨j, hj1, hj2, hj3⟩ := h
      have hji : j ≠ i := fun he => hj3 (he ▸ hi)
      have hrec := ih (i + 1) ⟨j, by omega, by omega, hj3⟩
      rw [hstep]
      refine ⟨hrec.1, ?_, ?_⟩
      · have := hrec.2.1
        omega
      · intro m hm1 hm2
        by_cases hmi : m = i
        · exact hmi ▸ hi
        · exact hrec.2.2 m (by omega) hm2
    · have hi2 : ("property" ++ natToDec i) ∉ keys := hi
      have hstep : freshAux keys (fuel + 1) i = i := by
        rw [freshAux, if_neg hi2]
      rw [hstep]
      exact ⟨hi, Nat.le_refl i, fun m hm1 hm2 => absurd hm2 (by omega)⟩

/-- Pigeonhole: among any `keys.length + 1` consecutive generated names at
least one is not a key (the names are pairwise distinct). -/
theorem exists_fresh (keys : List String) (i : Nat) :
    ∃ j, i ≤ j ∧ j < i + (keys.length + 1) ∧ propName j ∉ keys := by
  by_contra hcon
  push_neg at hcon
  have hsub : ∀ t ∈ List.range (keys.length + 1), propName (i + t) ∈ keys := by
    intro t ht
    rw [List.mem_range] at ht
    exact hcon (i + t) (by omega) (by omega)
  have hnodup :
      ((List.range (keys.length + 1)).map (fun t => propName (i + t))).Nodup := by
    refine List.Nodup.map ?_ (List.nodup_range _)
    intro a b hab
    have := propName_injective hab
    omega
  have hsubset :
      ((List.range (keys.length + 1)).map (fun t => propName (i + t))) ⊆
        keys := by
    intro x hx
    rw [List.mem_map] at hx
    obtain ⟨t, ht, rfl⟩ := hx
    exact hsub t ht
  have h1 :
      ((List.range (keys.length + 1)).map
        (fun t => propName (i + t))).toFinset.card = keys.length + 1 := by
    rw [List.toFinset_card_of_nodup hnodup]
    simp
  have h2 :
      ((List.range (keys.length + 1)).map
        (fun t => propName (i + t))).toFinset ⊆ keys.toFinset := by
    intro x hx
    rw [List.mem_toFinset] at hx ⊢
    exact hsubset hx
  have h3 := Finset.card_le_card h2
  have h4 : keys.toFinset.card ≤ keys.length := List.toFinset_card_le keys
  omega

/-- **C3 (counterexample)**: on an object whose only property is already
named `newProperty2`, `SchemaProperties.tsx`'s `addProperty` generates
`newProperty${1 + 1}` = `newProperty2` and *overwrites* the existing
sibling (its node changes from `{type:"number"}` to `{type:"string"}`;
the property count stays 1, and the smallest unused index, 1, is
skipped). -/
theorem C3_counterexample :
    addProperty docNewProp2 "" =
      .obj [("type", .str "object"),
            ("properties",
             .obj [("newProperty2", .obj [("type", .str "string")])])] ∧
    getF docNewProp2 "properties" ≠
      getF (addProperty docNewProp2 "") "properties" := by
  exact ⟨by decide, by decide⟩

/-- **C3 (amended)**: `SchemaProperties.tsx`'s `addProperty` names the new
property `newProperty{count+1}` where `count` is the current number of
properties — not the smallest unused index — so it can collide with and
overwrite a sibling (see the counterexample); Scenario A (empty root
gets `newProperty1`) does hold.  `page.tsx`'s `handleAddProperty` is the
variant that uses the smallest positive unused index: its name
`property{n}` is fresh, `n` is minimal, and the new property is appended
without disturbing existing siblings. -/
theorem C3_add_property_amended (fs ps : List (String × Json))
    (hp : objGet fs "properties" = some (.obj ps)) :
    getF (addProperty (Json.obj fs) "") "properties" =
      some (.obj (objSet ps ("newProperty" ++ natToDec (ps.length + 1))
        (.obj [("type", .str "string")]))) ∧
    addProperty docEmptyObj "" =
      .obj [("type", .str "object"),
            ("properties",
             .obj [("newProperty1", .obj [("type", .str "string")])])] ∧
    getF (handleAddProperty (Json.obj fs)) "properties" =
      some (.obj (ps ++
        [(propName (freshAux (objKeys ps) (ps.length + 1) 1),
          .obj [("type", .str "string")])])) ∧
    propName (freshAux (objKeys ps) (ps.length + 1) 1) ∉ objKeys ps ∧
    1 ≤ freshAux (objKeys ps) (ps.length + 1) 1 ∧
    (∀ m, 1 ≤ m → m < freshAux (objKeys ps) (ps.length + 1) 1 →
      propName m ∈ objKeys ps) := by
  have hklen : (objKeys ps).length = ps.length := by
    simp [objKeys]
  have hspec := freshAux_spec (objKeys ps) (ps.length + 1) 1
    (by
      have := exists_fresh (objKeys ps) 1
      rw [hklen] at this
      exact this)
  refine ⟨?_, by decide, ?_, hspec.1, hspec.2.1, hspec.2.2⟩
  · simp [addProperty, applyAtPath, addPropertyMut, getF_obj, setF_obj, hp,
      optTruthy, jsTruthy, objGet_objSet_self]
  · have happend := objSet_of_not_mem ps _ (.obj [("type", .str "string")])
      hspec.1
    rw [propName] at happend
    have hmut : handleAddProperty (Json.obj fs) =
        setF (Json.obj fs) "properties"
          (.obj (objSet ps
            ("property" ++ natToDec (freshAux (objKeys ps) (ps.length + 1) 1))
            (.obj [("type", .str "string")]))) := by
      simp [handleAddProperty, getF_obj, hp, optTruthy, jsTruthy]
    rw [hmut, setF_obj, getF_obj, objGet_objSet_self, happend]
    simp [propName]

/-- Witness for C3 (amended) at a document whose only property is
`newProperty2` (so the page.tsx search returns 1 while the SP formula
returns the colliding index 2). -/
theorem C3_add_property_amended_witness :
    getF (addProperty docNewProp2 "") "properties" =
      some (.obj (objSet [("newProperty2", .obj [("type", .str "number")])]
        ("newProperty" ++ natToDec 2) (.obj [("type", .str "string")]))) ∧
    getF (handleAddProperty docNewProp2) "properties" =
      some (.obj ([("newProperty2", .obj [("type", .str "number")])] ++
        [(propName (freshAux ["newProperty2"] 2 1),
          .obj [("type", .str "string")])])) := by
  have h := C3_add_property_amended
    [("type", .str "object"),
     ("properties", .obj [("newProperty2", .obj [("type", .str "number")])])]
    [("newProperty2", .obj [("type", .str "number")])] (by decide)
  exact ⟨h.1, h.2.2.1⟩

/-! ## C6 / C10 — renameProperty order and collision semantics -/

theorem renameBuildFrom_fresh (o n : String) :
    ∀ (ps : List (String × Json)) (acc : List (String × Json)),
      (∀ p ∈ ps, (if p.1 = o then n else p.1) ∉ objKeys acc) →
      (ps.map (fun p => if p.1 = o then n else p.1)).Nodup →
      ps.foldl (fun acc p => objSet acc (if p.1 = o then n else p.1) p.2) acc
        = acc ++ ps.map (fun p => ((if p.1 = o then n else p.1), p.2)) := by
  intro ps
  induction ps with
  | nil => simp
  | cons p rest ih =>
    intro acc hfresh hnd
    obtain ⟨k, v⟩ := p
    rw [List.foldl_cons]
    rw [objSet_of_not_mem acc _ v (hfresh (k, v) (List.mem_cons_self _ _))]
    rw [List.map_cons, List.nodup_cons] at hnd
    rw [ih (acc ++ [((if k = o then n else k), v)]) ?_ hnd.2]
    · simp
    · intro q hq
      rw [objKeys_append]
      simp only [List.mem_append, not_or]
      refine ⟨hfresh q (List.mem_cons_of_mem _ hq), ?_⟩
      simp only [objKeys_cons, objKeys_nil, List.mem_singleton]
      intro he
      exact hnd.1 (he ▸ List.mem_map_of_mem _ hq)

/-- Stepping over a segment whose keys differ from `o` and are fresh for
the accumulator appends the segment unchanged. -/
theorem renameBuildFrom_id (o n : String) (seg acc : List (String × Json))
    (ho : o ∉ objKeys seg) (hnd : (objKeys seg).Nodup)
    (hfresh : ∀ k ∈ objKeys seg, k ∉ objKeys acc) :
    seg.foldl (fun acc p => objSet acc (if p.1 = o then n else p.1) p.2) acc
      = acc ++ seg := by
  have hkeys : ∀ p ∈ seg, (if p.1 = o then n else p.1) = p.1 := by
    intro p hp
    have : p.1 ≠ o := by
      intro he
      exact ho (he ▸ List.mem_map_of_mem _ hp)
    simp [this]
  rw [renameBuildFrom_fresh o n seg acc ?_ ?_]
  · have : seg.map (fun p => ((if p.1 = o then n else p.1), p.2)) = seg := by
      rw [List.map_congr_left (fun p hp => by rw [hkeys p hp])]
      simp
    rw [this]
  · intro p hp
    rw [hkeys p hp]
    exact hfresh p.1 (List.mem_map_of_mem _ hp)
  · rw [List.map_congr_left hkeys]
    exact hnd

/-- No-collision rename: the plain relabel-in-place result. -/
theorem renameBuild_no_collision (o n : String) (v : Json)
    (pre post : List (String × Json))
    (hpre : (objKeys pre).Nodup) (hpost : (objKeys post).Nodup)
    (hdisj : ∀ k ∈ objKeys post, k ∉ objKeys pre)
    (hoPre : o ∉ objKeys pre) (hoPost : o ∉ objKeys post)
    (hnPre : n ∉ objKeys pre) (hnPost : n ∉ objKeys post) :
    renameBuild o n (pre ++ (o, v) :: post) = pre ++ (n, v) :: post := by
  rw [renameBuild, List.foldl_append]
  rw [renameBuildFrom_id o n pre [] hoPre hpre (by simp [objKeys_nil])]
  rw [List.nil_append, List.foldl_cons]
  simp only [eq_self_iff_true, if_true]
  rw [objSet_of_not_mem pre n v hnPre]
  rw [renameBuildFrom_id o n post _ hoPost hpost ?_]
  · simp
  · intro k hk
    rw [objKeys_append]
    simp only [List.mem_append, not_or, objKeys_cons, objKeys_nil,
      List.mem_singleton]
    exact ⟨hdisj k hk, fun he => hnPost (he ▸ hk)⟩

/-- Collision rename with `oldKey` occurring before `newKey`: the merged
entry sits at `oldKey`'s slot and retains the overwritten sibling's value
(the sibling's own iteration writes last). -/
theorem renameBuild_coll_old_first (o n : String) (vo vn : Json)
    (pre mid post : List (String × Json))
    (hpre : (objKeys pre).Nodup) (hmid : (objKeys mid).Nodup)
    (hpost : (objKeys post).Nodup)
    (hdisjMidPre : ∀ k ∈ objKeys mid, k ∉ objKeys pre)
    (hdisjPostPre : ∀ k ∈ objKeys post, k ∉ objKeys pre)
    (hdisjPostMid : ∀ k ∈ objKeys post, k ∉ objKeys mid)
    (hoPre : o ∉ objKeys pre) (hoMid : o ∉ objKeys mid)
    (hoPost : o ∉ objKeys post)
    (hnPre : n ∉ objKeys pre) (hnMid : n ∉ objKeys mid)
    (hnPost : n ∉ objKeys post) :
    renameBuild o n (pre ++ (o, vo) :: mid ++ (n, vn) :: post) =
      pre ++ (n, vn) :: mid ++ post := by
  have hfreshMid : ∀ k ∈ objKeys mid, k ∉ objKeys (pre ++ [(n, vo)]) := by
    intro k hk
    rw [objKeys_append, objKeys_cons, objKeys_nil]
    simp only [List.mem_append, List.mem_singleton, not_or]
    exact ⟨hdisjMidPre k hk, fun he => hnMid (he ▸ hk)⟩
  have hfreshPost : ∀ k ∈ objKeys post, k ∉ objKeys (pre ++ (n, vn) :: mid) := by
    intro k hk
    rw [objKeys_append, objKeys_cons]
    simp only [List.mem_append, List.mem_cons, not_or]
    exact ⟨hdisjPostPre k hk,
      fun he => hnPost (he ▸ hk), hdisjPostMid k hk⟩
  have hinner :
      List.foldl (fun acc p => objSet acc (if p.1 = o then n else p.1) p.2)
        [] (pre ++ (o, vo) :: mid) = pre ++ (n, vo) :: mid := by
    rw [List.foldl_append]
    rw [renameBuildFrom_id o n pre [] hoPre hpre (by simp [objKeys_nil])]
    rw [List.nil_append, List.foldl_cons]
    simp only [eq_self_iff_true, if_true]
    rw [objSet_of_not_mem pre n vo hnPre]
    rw [renameBuildFrom_id o n mid _ hoMid hmid hfreshMid]
    simp
  rw [renameBuild, List.foldl_append, hinner, List.foldl_cons]
  simp only [ite_self]
  rw [objSet_mid pre mid n vo vn hnPre]
  rw [renameBuildFrom_id o n post _ hoPost hpost hfreshPost]

/-- Collision rename with `newKey` occurring before `oldKey`: the merged
entry sits at `newKey`'s original slot and carries `oldKey`'s value. -/
theorem renameBuild_coll_new_first (o n : String) (vo vn : Json)
    (pre mid post : List (String × Json))
    (hpre : (objKeys pre).Nodup) (hmid : (objKeys mid).Nodup)
    (hpost : (objKeys post).Nodup)
    (hdisjMidPre : ∀ k ∈ objKeys mid, k ∉ objKeys pre)
    (hdisjPostPre : ∀ k ∈ objKeys post, k ∉ objKeys pre)
    (hdisjPostMid : ∀ k ∈ objKeys post, k ∉ objKeys mid)
    (hoPre : o ∉ objKeys pre) (hoMid : o ∉ objKeys mid)
    (hoPost : o ∉ objKeys post)
    (hnPre : n ∉ objKeys pre) (hnMid : n ∉ objKeys mid)
    (hnPost : n ∉ objKeys post) :
    renameBuild o n (pre ++ (n, vn) :: mid ++ (o, vo) :: post) =
      pre ++ (n, vo) :: mid ++ post := by
  have hfreshMid : ∀ k ∈ objKeys mid, k ∉ objKeys (pre ++ [(n, vn)]) := by
    intro k hk
    rw [objKeys_append, objKeys_cons, objKeys_nil]
    simp only [List.mem_append, List.mem_singleton, not_or]
    exact ⟨hdisjMidPre k hk, fun he => hnMid (he ▸ hk)⟩
  have hfreshPost : ∀ k ∈ objKeys post, k ∉ objKeys (pre ++ (n, vo) :: mid) := by
    intro k hk
    rw [objKeys_append, objKeys_cons]
    simp only [List.mem_append, List.mem_cons, not_or]
    exact ⟨hdisjPostPre k hk,
      fun he => hnPost (he ▸ hk), hdisjPostMid k hk⟩
  have hinner :
      List.foldl (fun acc p => objSet acc (if p.1 = o then n else p.1) p.2)
        [] (pre ++ (n, vn) :: mid) = pre ++ (n, vn) :: mid := by
    rw [List.foldl_append]
    rw [renameBuildFrom_id o n pre [] hoPre hpre (by simp [objKeys_nil])]
    rw [List.nil_append, List.foldl_cons]
    simp only [ite_self]
    rw [objSet_of_not_mem pre n vn hnPre]
    rw [renameBuildFrom_id o n mid _ hoMid hmid hfreshMid]
    simp
  rw [renameBuild, List.foldl_append, hinner, List.foldl_cons]
  simp only [eq_self_iff_true, if_true]
  rw [objSet_mid pre mid n vn vo hnPre]
  rw [renameBuildFrom_id o n post _ hoPost hpost hfreshPost]

/-- Decomposition of a no-duplicate key list split around two marked
keys. -/
theorem nodup_split3 (pre mid post : List String) (o n : String)
    (hnd : ((pre ++ o :: mid) ++ n :: post).Nodup) :
    pre.Nodup ∧ mid.Nodup ∧ post.Nodup ∧
    (∀ k ∈ mid, k ∉ pre) ∧ (∀ k ∈ post, k ∉ pre) ∧ (∀ k ∈ post, k ∉ mid) ∧
    o ∉ pre ∧ o ∉ mid ∧ o ∉ post ∧
    n ∉ pre ∧ n ∉ mid ∧ n ∉ post ∧ o ≠ n := by
  simp only [List.nodup_append, List.nodup_cons, List.disjoint_left,
    List.mem_append, List.mem_cons, not_or] at hnd
  obtain ⟨⟨h1, ⟨h2, h3⟩, h4⟩, ⟨h5, h6⟩, h7⟩ := hnd
  refine ⟨h1, h3, h6, ?_, ?_, ?_, ?_, h2, ?_, ?_, ?_, h5, ?_⟩
  · intro k hk hkpre
    exact (h4 hkpre).2 hk
  · intro k hk hkpre
    exact (h7 (Or.inl hkpre)).2 hk
  · intro k hk hkm
    exact (h7 (Or.inr (Or.inr hkm))).2 hk
  · intro ho
    exact (h4 ho).1 rfl
  · exact (h7 (Or.inr (Or.inl rfl))).2
  · intro hn2
    exact (h7 (Or.inl hn2)).1 rfl
  · intro hn2
    exact (h7 (Or.inr (Or.inr hn2))).1 rfl
  · exact fun he => (h7 (Or.inr (Or.inl rfl))).1 he

/-- Decomposition of a no-duplicate key list split around one marked
key. -/
theorem nodup_split2 (pre post : List String) (o : String)
    (hnd : (pre ++ o :: post).Nodup) :
    pre.Nodup ∧ post.Nodup ∧ (∀ k ∈ post, k ∉ pre) ∧
    o ∉ pre ∧ o ∉ post := by
  simp only [List.nodup_append, List.nodup_cons, List.disjoint_left,
    List.mem_cons, not_or] at hnd
  obtain ⟨h1, ⟨h2, h3⟩, h4⟩ := hnd
  refine ⟨h1, h3, ?_, ?_, h2⟩
  · intro k hk hkpre
    exact (h4 hkpre).2 hk
  · intro ho
    exact (h4 ho).1 rfl

/-- `docAbc` with `b` additionally marked required. -/
def docAbcReq : Json :=
  .obj [("type", .str "object"),
        ("properties", .obj [("a", .num 1), ("b", .num 2), ("c", .num 3)]),
        ("required", .arr [.str "b"])]

/-- **C6 (counterexample)**: renaming `b` to the existing sibling name `c`
in an object `[a, b, c]` does not relabel `b`'s slot with its value kept:
the result has two entries `[a, c]` and `c` is bound to the *sibling's*
original value (`.num 3`), not `b`'s value (`.num 2`) as the claim
("value unchanged") requires. -/
theorem C6_counterexample :
    getF (renameProperty docAbc "" "b" "c") "properties" =
      some (.obj [("a", .num 1), ("c", .num 3)]) ∧
    objGet [("a", Json.num 1), ("c", Json.num 3)] "c" ≠ some (.num 2) := by
  exact ⟨by decide, by decide⟩

/-- **C6 (amended)**: *provided `newName` is not already a sibling name*,
`renameProperty` yields the original insertion order with `oldName`'s slot
relabeled to `newName` (value unchanged) and rewrites `required` entries
equal to `oldName`; when `newName` collides with an existing sibling the
slots are merged instead (see C10). -/
theorem C6_rename_order_amended (fs pre post : List (String × Json))
    (o n : String) (v : Json)
    (hp : objGet fs "properties" = some (.obj (pre ++ (o, v) :: post)))
    (hnd : (objKeys (pre ++ (o, v) :: post)).Nodup)
    (hn : n ∉ objKeys (pre ++ (o, v) :: post))
    (hne : o ≠ n) (htrim : jsTrim n ≠ "") :
    getF (renameProperty (Json.obj fs) "" o n) "properties" =
      some (.obj (pre ++ (n, v) :: post)) ∧
    (∀ rs, objGet fs "required" = some (.arr rs) →
      getF (renameProperty (Json.obj fs) "" o n) "required" =
        some (.arr (rs.map (fun r => if r = .str o then .str n else r)))) := by
  have hne1 : ("required" : String) ≠ "properties" := by decide
  have hne2 : ("properties" : String) ≠ "required" := by decide
  have hkeys : objKeys (pre ++ (o, v) :: post) =
      objKeys pre ++ o :: objKeys post := by
    rw [objKeys_append, objKeys_cons]
  rw [hkeys] at hnd hn
  obtain ⟨hpreNd, hpostNd, hdisj, hoPre, hoPost⟩ :=
    nodup_split2 (objKeys pre) (objKeys post) o hnd
  simp only [List.mem_append, List.mem_cons, not_or] at hn
  have hbuild := renameBuild_no_collision o n v pre post hpreNd hpostNd
    hdisj hoPre hoPost hn.1 hn.2.2
  have hhas : objHas (pre ++ (o, v) :: post) o = true := by
    rw [objHas_iff, hkeys]
    simp
  have hguard : ¬(o = n ∨ jsTrim n = "") := by
    simp [hne, htrim]
  constructor
  · cases hreq : objGet fs "required" with
    | none =>
      simp [renameProperty, hguard, applyAtPath, renamePropertyMut, getF_obj,
        setF_obj, hp, hhas, hreq, objGet_objSet_ne _ _ _ _ hne1,
        objGet_objSet_self, hbuild]
    | some rv =>
      cases rv <;>
        simp [renameProperty, hguard, applyAtPath, renamePropertyMut,
          getF_obj, setF_obj, hp, hhas, hreq, objGet_objSet_ne _ _ _ _ hne1,
          objGet_objSet_ne _ _ _ _ hne2, objGet_objSet_self, hbuild]
  · intro rs hreq
    simp [renameProperty, hguard, applyAtPath, renamePropertyMut, getF_obj,
      setF_obj, hp, hhas, hreq, objGet_objSet_ne _ _ _ _ hne1,
      objGet_objSet_self, hbuild]

/-- Witness for C6 (amended): P2's scenario — `[a, b, c]` with `b`
required, renaming `b` to the fresh name `x` gives order `[a, x, c]` and
`required = ["x"]`. -/
theorem C6_rename_order_amended_witness :
    getF (renameProperty docAbcReq "" "b" "x") "properties" =
      some (.obj ([("a", .num 1)] ++ ("x", .num 2) :: [("c", .num 3)])) ∧
    getF (renameProperty docAbcReq "" "b" "x") "required" =
      some (.arr ([.str "b"].map
        (fun r => if r = .str "b" then .str "x" else r))) := by
  have h := C6_rename_order_amended
    [("type", .str "object"),
     ("properties", .obj [("a", .num 1), ("b", .num 2), ("c", .num 3)]),
     ("required", .arr [.str "b"])]
    [("a", .num 1)] [("c", .num 3)] "b" "x" (.num 2)
    (by decide) (by decide) (by decide) (by decide) (by decide)
  exact ⟨h.1, h.2 [.str "b"] (by decide)⟩

/-- **C10 (counterexample)**: in `[a, b, c]` renaming `b` to the existing
name `c` (so `newName` *follows* `oldName`) leaves `c` at `b`'s old slot
(index 1, not `c`'s original index 2) bound to the sibling's original
value `.num 3`, not to `oldName`'s former value `.num 2` as claimed. -/
theorem C10_counterexample :
    getF (handleRenameProperty docAbc "b" "c") "properties" =
      some (.obj [("a", .num 1), ("c", .num 3)]) ∧
    objGet [("a", Json.num 1), ("c", Json.num 3)] "c" ≠ some (.num 2) := by
  exact ⟨by decide, by decide⟩

/-- **C10 (amended)**: a collision rename produces exactly one fewer
entry, and JS object-assignment semantics decide slot and value by
iteration order: if `oldName` precedes `newName`, the merged entry sits at
`oldName`'s slot and carries the *overwritten sibling's* original value
(the sibling's later iteration overwrites it — last write wins); if
`newName` precedes `oldName`, the merged entry sits at `newName`'s
original slot and carries `oldName`'s value, as the claim stated.  Both
the page.tsx (`handleRenameProperty`) and SchemaProperties.tsx
(`renameProperty`, at root focus) variants agree. -/
theorem C10_rename_collision_amended :
    (∀ (fs pre mid post : List (String × Json)) (o n : String)
        (vo vn : Json),
      objGet fs "properties" =
        some (.obj (pre ++ (o, vo) :: mid ++ (n, vn) :: post)) →
      (objKeys (pre ++ (o, vo) :: mid ++ (n, vn) :: post)).Nodup →
      jsTrim n ≠ "" →
      getF (handleRenameProperty (Json.obj fs) o n) "properties" =
        some (.obj (pre ++ (n, vn) :: mid ++ post)) ∧
      getF (renameProperty (Json.obj fs) "" o n) "properties" =
        some (.obj (pre ++ (n, vn) :: mid ++ post))) ∧
    (∀ (fs pre mid post : List (String × Json)) (o n : String)
        (vo vn : Json),
      objGet fs "properties" =
        some (.obj (pre ++ (n, vn) :: mid ++ (o, vo) :: post)) →
      (objKeys (pre ++ (n, vn) :: mid ++ (o, vo) :: post)).Nodup →
      jsTrim n ≠ "" →
      getF (handleRenameProperty (Json.obj fs) o n) "properties" =
        some (.obj (pre ++ (n, vo) :: mid ++ post)) ∧
      getF (renameProperty (Json.obj fs) "" o n) "properties" =
        some (.obj (pre ++ (n, vo) :: mid ++ post))) := by
  have hne1 : ("required" : String) ≠ "properties" := by decide
  have hne2 : ("properties" : String) ≠ "required" := by decide
  constructor
  · intro fs pre mid post o n vo vn hp hnd htrim
    have hkeys : objKeys (pre ++ (o, vo) :: mid ++ (n, vn) :: post) =
        (objKeys pre ++ o :: objKeys mid) ++ n :: objKeys post := by
      rw [objKeys_append, objKeys_append, objKeys_cons, objKeys_cons]
    rw [hkeys] at hnd
    obtain ⟨h1, h2, h3, h4, h5, h6, h7, h8, h9, h10, h11, h12, hon⟩ :=
      nodup_split3 (objKeys pre) (objKeys mid) (objKeys post) o n hnd
    have hbuild := renameBuild_coll_old_first o n vo vn pre mid post
      h1 h2 h3 h4 h5 h6 h7 h8 h9 h10 h11 h12
    have hhas : objHas (pre ++ (o, vo) :: mid ++ (n, vn) :: post) o =
        true := by
      rw [objHas_iff, hkeys]
      simp
    have hguard : ¬(o = n ∨ jsTrim n = "") := by
      simp [hon, htrim]
    simp only [List.append_assoc, List.cons_append] at hbuild hhas hp
    constructor
    · cases hreq : objGet fs "required" with
      | none =>
        simp [handleRenameProperty, renamePropertyMut, getF_obj, setF_obj,
          hp, hhas, hreq, objGet_objSet_ne _ _ _ _ hne1, objGet_objSet_self,
          hbuild]
      | some rv =>
        cases rv <;>
          simp [handleRenameProperty, renamePropertyMut, getF_obj, setF_obj,
            hp, hhas, hreq, objGet_objSet_ne _ _ _ _ hne1,
            objGet_objSet_ne _ _ _ _ hne2, objGet_objSet_self, hbuild]
    · cases hreq : objGet fs "required" with
      | none =>
        simp [renameProperty, hguard, applyAtPath, renamePropertyMut,
          getF_obj, setF_obj, hp, hhas, hreq, objGet_objSet_ne _ _ _ _ hne1,
          objGet_objSet_self, hbuild]
      | some rv =>
        cases rv <;>
          simp [renameProperty, hguard, applyAtPath, renamePropertyMut,
            getF_obj, setF_obj, hp, hhas, hreq,
            objGet_objSet_ne _ _ _ _ hne1, objGet_objSet_ne _ _ _ _ hne2,
            objGet_objSet_self, hbuild]
  · intro fs pre mid post o n vo vn hp hnd htrim
    have hkeys : objKeys (pre ++ (n, vn) :: mid ++ (o, vo) :: post) =
        (objKeys pre ++ n :: objKeys mid) ++ o :: objKeys post := by
      rw [objKeys_append, objKeys_append, objKeys_cons, objKeys_cons]
    rw [hkeys] at hnd
    obtain ⟨h1, h2, h3, h4, h5, h6, h7, h8, h9, h10, h11, h12, hno⟩ :=
      nodup_split3 (objKeys pre) (objKeys mid) (objKeys post) n o hnd
    have hbuild := renameBuild_coll_new_first o n vo vn pre mid post
      h1 h2 h3 h4 h5 h6 h10 h11 h12 h7 h8 h9
    have hhas : objHas (pre ++ (n, vn) :: mid ++ (o, vo) :: post) o =
        true := by
      rw [objHas_iff, hkeys]
      simp
    have hon : o ≠ n := fun he => hno he.symm
    have hguard : ¬(o = n ∨ jsTrim n = "") := by
      simp [hon, htrim]
    simp only [List.append_assoc, List.cons_append] at hbuild hhas hp
    constructor
    · cases hreq : objGet fs "required" with
      | none =>
        simp [handleRenameProperty, renamePropertyMut, getF_obj, setF_obj,
          hp, hhas, hreq, objGet_objSet_ne _ _ _ _ hne1, objGet_objSet_self,
          hbuild]
      | some rv =>
        cases rv <;>
          simp [handleRenameProperty, renamePropertyMut, getF_obj, setF_obj,
            hp, hhas, hreq, objGet_objSet_ne _ _ _ _ hne1,
            objGet_objSet_ne _ _ _ _ hne2, objGet_objSet_self, hbuild]
    · cases hreq : objGet fs "required" with
      | none =>
        simp [renameProperty, hguard, applyAtPath, renamePropertyMut,
          getF_obj, setF_obj, hp, hhas, hreq, objGet_objSet_ne _ _ _ _ hne1,
          objGet_objSet_self, hbuild]
      | some rv =>
        cases rv <;>
          simp [renameProperty, hguard, applyAtPath, renamePropertyMut,
            getF_obj, setF_obj, hp, hhas, hreq,
            objGet_objSet_ne _ _ _ _ hne1, objGet_objSet_ne _ _ _ _ hne2,
            objGet_objSet_self, hbuild]

/-- Witness for C10 (amended): both collision orders on `[a, b, c]` —
renaming `b` to `c` (old first) and `c` to `a` (new first). -/
theorem C10_rename_collision_amended_witness :
    getF (handleRenameProperty docAbc "b" "c") "properties" =
      some (.obj ([("a", .num 1)] ++ ("c", .num 3) :: [] ++ [])) ∧
    getF (handleRenameProperty docAbc "c" "a") "properties" =
      some (.obj ([] ++ ("a", .num 3) :: [("b", .num 2)] ++ [])) :=
  ⟨(C10_rename_collision_amended.1
      [("type", .str "object"),
       ("properties", .obj [("a", .num 1), ("b", .num 2), ("c", .num 3)])]
      [("a", .num 1)] [] [] "b" "c" (.num 2) (.num 3)
      (by decide) (by decide) (by decide)).1,
   (C10_rename_collision_amended.2
      [("type", .str "object"),
       ("properties", .obj [("a", .num 1), ("b", .num 2), ("c", .num 3)])]
      [] [("b", .num 2)] [] "c" "a" (.num 3) (.num 1)
      (by decide) (by decide) (by decide)).1⟩

/-! ## C1 — type change field migration -/

/-- Reading a field from the spread merge `{...node, ...updates}`: the
last update entry for the key wins; with no update entry the node's own
field shows through. -/
theorem getF_mergeUpdates (updates : List (String × Option Json)) :
    ∀ (fs : List (String × Json)) (k : String),
      getF (mergeUpdates (Json.obj fs) updates) k =
        updates.foldl (fun cur u => if u.1 = k then u.2 else cur)
          (getF (Json.obj fs) k) := by
  induction updates with
  | nil => intro fs k; rfl
  | cons u rest ih =>
    intro fs k
    obtain ⟨uk, uv⟩ := u
    cases uv with
    | none =>
      have hstep : mergeUpdates (Json.obj fs) ((uk, none) :: rest) =
          mergeUpdates (Json.obj (objDel fs uk)) rest := rfl
      rw [hstep, ih, List.foldl_cons]
      by_cases hk : uk = k
      · subst hk
        simp [getF_obj, objGet_objDel_self]
      · simp [getF_obj, objGet_objDel_ne _ _ _ (Ne.symm hk), hk]
    | some v =>
      have hstep : mergeUpdates (Json.obj fs) ((uk, some v) :: rest) =
          mergeUpdates (Json.obj (objSet fs uk v)) rest := rfl
      rw [hstep, ih, List.foldl_cons]
      by_cases hk : uk = k
      · subst hk
        simp [getF_obj, objGet_objSet_self]
      · simp [getF_obj, objGet_objSet_ne _ _ _ _ (Ne.symm hk), hk]

theorem updFoldl_no_match (l : List (String × Option Json)) (k : String)
    (init : Option Json) (h : ∀ u ∈ l, u.1 ≠ k) :
    l.foldl (fun cur u => if u.1 = k then u.2 else cur) init = init := by
  induction l generalizing init with
  | nil => rfl
  | cons u rest ih =>
    rw [List.foldl_cons, if_neg (h u (List.mem_cons_self _ _))]
    exact ih init (fun u hu => h u (List.mem_cons_of_mem _ hu))

theorem updFoldl_all_none (l : List (String × Option Json)) (k : String)
    (init : Option Json) (h : ∀ u ∈ l, u.1 = k → u.2 = none)
    (hex : ∃ u ∈ l, u.1 = k) :
    l.foldl (fun cur u => if u.1 = k then u.2 else cur) init = none := by
  induction l generalizing init with
  | nil =>
    obtain ⟨u, hu, _⟩ := hex
    exact absurd hu (List.not_mem_nil u)
  | cons u rest ih =>
    rw [List.foldl_cons]
    by_cases hk : u.1 = k
    · rw [if_pos hk, h u (List.mem_cons_self _ _) hk]
      by_cases hex2 : ∃ w ∈ rest, w.1 = k
      · exact ih none (fun w hw => h w (List.mem_cons_of_mem _ hw)) hex2
      · push_neg at hex2
        exact updFoldl_no_match rest k none hex2
    · rw [if_neg hk]
      obtain ⟨w, hw, hwk⟩ := hex
      rcases List.mem_cons.mp hw with he | he
      · exact absurd (he ▸ hwk) hk
      · exact ih init (fun w hw => h w (List.mem_cons_of_mem _ hw)) ⟨w, he, hwk⟩

/-- Filtering an object's fields acts pointwise on lookups when keys are
unique. -/
theorem objGet_filter (pred : String × Json → Bool)
    (cs : List (String × Json)) (k : String)
    (hnd : (objKeys cs).Nodup) :
    objGet (cs.filter pred) k =
      (objGet cs k).bind (fun v => if pred (k, v) then some v else none) := by
  induction cs with
  | nil => rfl
  | cons p rest ih =>
    obtain ⟨k1, v1⟩ := p
    rw [objKeys_cons, List.nodup_cons] at hnd
    by_cases hk : k1 = k
    · subst hk
      rw [objGet_cons]
      simp only [if_pos rfl]
      cases hpred : pred (k1, v1) with
      | true =>
        rw [List.filter_cons_of_pos hpred, objGet_cons]
        simp [hpred]
      | false =>
        rw [List.filter_cons_of_neg (by simp [hpred])]
        have : objGet (rest.filter pred) k1 = none := by
          rw [objGet_eq_none_iff]
          intro hmem
          exact hnd.1 (((List.filter_sublist rest).map Prod.fst).subset hmem)
        simp [this, hpred]
    · cases hpred : pred (k1, v1) with
      | true =>
        rw [List.filter_cons_of_pos hpred, objGet_cons, objGet_cons,
          if_neg hk, if_neg hk]
        exact ih hnd.2
      | false =>
        rw [List.filter_cons_of_neg (by simp [hpred]), objGet_cons,
          if_neg hk]
        exact ih hnd.2

/-- The kinds offered by the `SchemaProperties.tsx` type `Select`. -/
def spKinds : List String :=
  ["string", "number", "integer", "boolean", "object", "array"]

/-- The kinds offered by the `page.tsx` type `Select` (adds `null`). -/
def pageKinds : List String :=
  ["string", "number", "integer", "boolean", "object", "array", "null"]

/-- The node produced by `updateProperty`'s `field = "type"` branch for a
child node: cleanup followed by assigning the new type tag. -/
def spTypeChange (child : Json) (t : String) : Json :=
  setF (cleanupPropertiesForType child t) "type" (.str t)

/-- The `undefined`-assignments list built by the page.tsx type-change
handler's `forEach`. -/
def typeChangeDels (cs : List (String × Json)) (t : String) :
    List (String × Option Json) :=
  cs.filterMap (fun p =>
    if p.1 ≠ "type" ∧ p.1 ≠ "title" ∧ p.1 ≠ "description" ∧
        (pageTypeAllowedProperties t).contains p.1 = false then
      some (p.1, (none : Option Json))
    else none)

theorem mem_typeChangeDels (cs : List (String × Json)) (t : String)
    (u : String × Option Json) (hu : u ∈ typeChangeDels cs t) :
    u.2 = none ∧ u.1 ≠ "type" ∧ u.1 ≠ "title" ∧ u.1 ≠ "description" ∧
    (pageTypeAllowedProperties t).contains u.1 = false ∧
    u.1 ∈ objKeys cs := by
  rw [typeChangeDels, List.mem_filterMap] at hu
  obtain ⟨p, hp, hf⟩ := hu
  by_cases hc : p.1 ≠ "type" ∧ p.1 ≠ "title" ∧ p.1 ≠ "description" ∧
      (pageTypeAllowedProperties t).contains p.1 = false
  · rw [if_pos hc] at hf
    obtain rfl := Option.some.inj hf
    exact ⟨rfl, hc.1, hc.2.1, hc.2.2.1, hc.2.2.2, List.mem_map_of_mem _ hp⟩
  · rw [if_neg hc] at hf
    exact absurd hf (Option.noConfusion)

theorem typeChangeDels_mem_of (cs : List (String × Json)) (t k : String)
    (hkmem : k ∈ objKeys cs) (h1 : k ≠ "type") (h2 : k ≠ "title")
    (h3 : k ≠ "description")
    (h4 : (pageTypeAllowedProperties t).contains k = false) :
    (k, (none : Option Json)) ∈ typeChangeDels cs t := by
  rw [objKeys, List.mem_map] at hkmem
  obtain ⟨p, hp, rfl⟩ := hkmem
  rw [typeChangeDels, List.mem_filterMap]
  exact ⟨p, hp, by rw [if_pos ⟨h1, h2, h3, h4⟩]⟩

theorem typeChangeUpdates_eq (cs : List (String × Json)) (t : String) :
    typeChangeUpdates (Json.obj cs) t =
      [("type", some (Json.str t))] ++ typeChangeDels cs t ++
      (if t = "object" ∧ optTruthy (getF (Json.obj cs) "properties") = false
       then [("properties", some (Json.obj [])),
             ("additionalProperties", some (Json.bool false))]
       else []) ++
      (if t = "array" then [("items", (none : Option Json))] else []) := rfl

theorem getF_setF_ne (j : Json) (k k' : String) (v : Json) (h : k' ≠ k) :
    getF (setF j k v) k' = getF j k' := by
  cases j <;> simp [setF, getF, objGet_objSet_ne _ _ _ _ h]

theorem getF_setF_self (gs : List (String × Json)) (k : String) (v : Json) :
    getF (setF (.obj gs) k v) k = some v := by
  simp [setF, getF, objGet_objSet_self]

theorem pageTypeChange_getF (cs : List (String × Json)) (t k : String) :
    getF (pageTypeChange (Json.obj cs) t) k =
      if k = "type" then some (.str t)
      else if t = "array" ∧ k = "items" then none
      else if t = "object" ∧
          optTruthy (getF (Json.obj cs) "properties") = false ∧
          k = "properties" then some (.obj [])
      else if t = "object" ∧
          optTruthy (getF (Json.obj cs) "properties") = false ∧
          k = "additionalProperties" then some (.bool false)
      else if k ≠ "title" ∧ k ≠ "description" ∧
          (pageTypeAllowedProperties t).contains k = false then none
      else getF (Json.obj cs) k := by
  rw [pageTypeChange, getF_mergeUpdates, typeChangeUpdates_eq,
    List.foldl_append, List.foldl_append, List.foldl_append]
  by_cases hkt : k = "type"
  · subst hkt
    rw [updFoldl_no_match (typeChangeDels cs t) _ _
      (fun u hu => (mem_typeChangeDels cs t u hu).2.1)]
    simp only [List.foldl_cons, List.foldl_nil, eq_self_iff_true, if_true]
    split
    · split <;> simp
    · split <;> simp
  · have htype0 :
        ([(("type" : String), some (Json.str t))].foldl
          (fun cur u => if u.1 = k then u.2 else cur)
          (getF (Json.obj cs) k)) = getF (Json.obj cs) k := by
      simp only [List.foldl_cons, List.foldl_nil]
      rw [if_neg (fun he : ("type" : String) = k => hkt he.symm)]
    rw [htype0]
    by_cases harrk : t = "array" ∧ k = "items"
    · obtain ⟨harr, hki⟩ := harrk
      subst hki
      rw [updFoldl_no_match (typeChangeDels cs t) _ _
        (fun u hu he => by
          have hfacts := mem_typeChangeDels cs t u hu
          rw [he, harr] at hfacts
          simp [pageTypeAllowedProperties, TYPE_ALLOWED_PROPERTIES]
            at hfacts)]
      rw [if_neg (show ¬(t = "object" ∧
          optTruthy (getF (Json.obj cs) "properties") = false) by
        rw [harr]; simp)]
      rw [if_pos harr]
      simp [hkt, harr]
    · by_cases hobjk : t = "object" ∧
          optTruthy (getF (Json.obj cs) "properties") = false ∧
          (k = "properties" ∨ k = "additionalProperties")
      · obtain ⟨hobj, hfalsy, hk2⟩ := hobjk
        rw [updFoldl_no_match (typeChangeDels cs t) _ _
          (fun u hu he => by
            have hfacts := mem_typeChangeDels cs t u hu
            rw [he, hobj] at hfacts
            rcases hk2 with hk2 | hk2 <;> rw [hk2] at hfacts <;>
              simp [pageTypeAllowedProperties, TYPE_ALLOWED_PROPERTIES]
                at hfacts)]
        rw [if_pos ⟨hobj, hfalsy⟩]
        rw [if_neg (show ¬t = "array" by rw [hobj]; simp)]
        rcases hk2 with hk2 | hk2 <;> subst hk2 <;>
          simp [hkt, hobj, hfalsy]
      · have hseedSO : ∀ init : Option Json,
            ((if t = "object" ∧
                optTruthy (getF (Json.obj cs) "properties") = false then
              [(("properties" : String), some (Json.obj [])),
               (("additionalProperties" : String), some (Json.bool false))]
             else []).foldl
              (fun cur u => if u.1 = k then u.2 else cur) init) = init := by
          intro init
          split
          · rename_i hcond
            simp only [List.foldl_cons, List.foldl_nil]
            rw [if_neg (fun he : ("properties" : String) = k =>
              hobjk ⟨hcond.1, hcond.2, Or.inl he.symm⟩)]
            rw [if_neg (fun he : ("additionalProperties" : String) = k =>
              hobjk ⟨hcond.1, hcond.2, Or.inr he.symm⟩)]
          · rfl
        have hseedSA : ∀ init : Option Json,
            ((if t = "array" then
                [(("items" : String), (none : Option Json))]
              else []).foldl
              (fun cur u => if u.1 = k then u.2 else cur) init) = init := by
          intro init
          split
          · rename_i hcond
            simp only [List.foldl_cons, List.foldl_nil]
            rw [if_neg (fun he : ("items" : String) = k =>
              harrk ⟨hcond, he.symm⟩)]
          · rfl
        rw [hseedSA, hseedSO]
        by_cases hdrop : k ≠ "title" ∧ k ≠ "description" ∧
            (pageTypeAllowedProperties t).contains k = false
        · have hres :
              ((typeChangeDels cs t).foldl
                (fun cur u => if u.1 = k then u.2 else cur)
                (getF (Json.obj cs) k)) = none := by
            by_cases hkin : k ∈ objKeys cs
            · exact updFoldl_all_none _ _ _
                (fun u hu _ => (mem_typeChangeDels cs t u hu).1)
                ⟨(k, none), typeChangeDels_mem_of cs t k hkin hkt hdrop.1
                  hdrop.2.1 hdrop.2.2, rfl⟩
            · rw [updFoldl_no_match (typeChangeDels cs t) _ _
                (fun u hu he => hkin (by
                  rw [← he]
                  exact (mem_typeChangeDels cs t u hu).2.2.2.2.2))]
              rw [getF_obj, (objGet_eq_none_iff cs k).mpr hkin]
          rw [hres]
          rw [if_neg hkt, if_neg harrk]
          rw [if_neg (fun hc => hobjk ⟨hc.1, hc.2.1, Or.inl hc.2.2⟩)]
          rw [if_neg (fun hc => hobjk ⟨hc.1, hc.2.1, Or.inr hc.2.2⟩)]
          rw [if_pos hdrop]
        · have hdels : ∀ u ∈ typeChangeDels cs t, u.1 ≠ k := by
            intro u hu he
            have hfacts := mem_typeChangeDels cs t u hu
            by_cases hkti : k = "title"
            · exact hfacts.2.2.1 (he.trans hkti)
            · by_cases hkd : k = "description"
              · exact hfacts.2.2.2.1 (he.trans hkd)
              · push_neg at hdrop
                have hct : (pageTypeAllowedProperties t).contains k =
                    true := by
                  have h2 := hdrop hkti hkd
                  cases hb : (pageTypeAllowedProperties t).contains k
                  · exact absurd hb h2
                  · rfl
                have hcf := hfacts.2.2.2.2.1
                rw [he, hct] at hcf
                exact Bool.noConfusion hcf
          rw [updFoldl_no_match (typeChangeDels cs t) _ _ hdels]
          rw [if_neg hkt, if_neg harrk]
          rw [if_neg (fun hc => hobjk ⟨hc.1, hc.2.1, Or.inl hc.2.2⟩)]
          rw [if_neg (fun hc => hobjk ⟨hc.1, hc.2.1, Or.inr hc.2.2⟩)]
          rw [if_neg hdrop]


theorem spTypeChange_getF (cs : List (String × Json)) (t k : String)
    (hnd : (objKeys cs).Nodup) :
    getF (spTypeChange (Json.obj cs) t) k =
      if k = "type" then some (.str t)
      else if t = "object" ∧
          optTruthy (getF (Json.obj cs) "properties") = false ∧
          k = "properties" then some (.obj [])
      else if t = "array" ∧
          optTruthy (getF (Json.obj cs) "items") = false ∧
          k = "items" then some (.obj [("type", .str "string")])
      else if (TYPE_ALLOWED_PROPERTIES t).contains k = false then none
      else getF (Json.obj cs) k := by
  have hfilterGet : ∀ q : String,
      objGet (cs.filter (fun p =>
        p.1 = "type" || (TYPE_ALLOWED_PROPERTIES t).contains p.1)) q =
      (objGet cs q).bind (fun v =>
        if (q = "type" || (TYPE_ALLOWED_PROPERTIES t).contains q : Bool)
        then some v else none) := by
    intro q
    rw [objGet_filter _ cs q hnd]
  have hcleanup : cleanupPropertiesForType (Json.obj cs) t =
      (let c1 : Json := .obj (cs.filter (fun p =>
          p.1 = "type" || (TYPE_ALLOWED_PROPERTIES t).contains p.1));
       let c2 : Json := if t = "object" ∧
            optTruthy (getF c1 "properties") = false then
          setF c1 "properties" (.obj []) else c1;
       if t = "array" ∧ optTruthy (getF c2 "items") = false then
          setF c2 "items" (.obj [("type", .str "string")]) else c2) := rfl
  have hpropsEq : t = "object" →
      getF (Json.obj (cs.filter (fun p =>
        p.1 = "type" || (TYPE_ALLOWED_PROPERTIES t).contains p.1)))
        "properties" = getF (Json.obj cs) "properties" := by
    intro ht
    rw [getF_obj, getF_obj, hfilterGet]
    cases objGet cs "properties" <;> simp [ht, TYPE_ALLOWED_PROPERTIES]
  have hitemsEq : t = "array" →
      getF (Json.obj (cs.filter (fun p =>
        p.1 = "type" || (TYPE_ALLOWED_PROPERTIES t).contains p.1)))
        "items" = getF (Json.obj cs) "items" := by
    intro ht
    rw [getF_obj, getF_obj, hfilterGet]
    cases objGet cs "items" <;> simp [ht, TYPE_ALLOWED_PROPERTIES]
  rw [spTypeChange]
  by_cases hP : t = "object" ∧
      optTruthy (getF (Json.obj (cs.filter (fun p =>
        p.1 = "type" || (TYPE_ALLOWED_PROPERTIES t).contains p.1)))
        "properties") = false
  · have hC : cleanupPropertiesForType (Json.obj cs) t =
        setF (Json.obj (cs.filter (fun p =>
          p.1 = "type" || (TYPE_ALLOWED_PROPERTIES t).contains p.1)))
          "properties" (.obj []) := by
      rw [hcleanup]
      dsimp only
      rw [if_pos hP]
      rw [if_neg (fun hA => by
        rw [hP.1] at hA
        exact absurd hA.1 (by decide))]
    rw [hC]
    have hfalsy : optTruthy (getF (Json.obj cs) "properties") = false := by
      rw [← hpropsEq hP.1]
      exact hP.2
    by_cases hkt : k = "type"
    · subst hkt
      rw [setF_obj, getF_setF_self, if_pos rfl]
    · rw [getF_setF_ne _ _ _ _ hkt, if_neg hkt]
      by_cases hkp : k = "properties"
      · subst hkp
        rw [setF_obj, getF_obj, objGet_objSet_self]
        rw [if_pos ⟨hP.1, hfalsy, rfl⟩]
      · rw [getF_setF_ne _ _ _ _ hkp]
        rw [if_neg (fun hc => hkp hc.2.2)]
        rw [if_neg (fun hc => by
          rw [hP.1] at hc
          exact absurd hc.1 (by decide))]
        rw [getF_obj, hfilterGet]
        by_cases hcont : (TYPE_ALLOWED_PROPERTIES t).contains k = false
        · rw [if_pos hcont]
          have hknm : k ∉ TYPE_ALLOWED_PROPERTIES t := by simpa using hcont
          cases objGet cs k <;> simp [hkt, hknm]
        · rw [if_neg hcont]
          have hct : (TYPE_ALLOWED_PROPERTIES t).contains k = true := by
            cases hb : (TYPE_ALLOWED_PROPERTIES t).contains k
            · exact absurd hb hcont
            · rfl
          have hkm : k ∈ TYPE_ALLOWED_PROPERTIES t := by simpa using hct
          rw [getF_obj]
          cases objGet cs k <;> simp [hkm]
  · by_cases hA : t = "array" ∧
        optTruthy (getF (Json.obj (cs.filter (fun p =>
          p.1 = "type" || (TYPE_ALLOWED_PROPERTIES t).contains p.1)))
          "items") = false
    · have hC : cleanupPropertiesForType (Json.obj cs) t =
          setF (Json.obj (cs.filter (fun p =>
            p.1 = "type" || (TYPE_ALLOWED_PROPERTIES t).contains p.1)))
            "items" (.obj [("type", .str "string")]) := by
        rw [hcleanup]
        dsimp only
        rw [if_neg hP]
        rw [if_pos hA]
      rw [hC]
      have hfalsy : optTruthy (getF (Json.obj cs) "items") = false := by
        rw [← hitemsEq hA.1]
        exact hA.2
      by_cases hkt : k = "type"
      · subst hkt
        rw [setF_obj, getF_setF_self, if_pos rfl]
      · rw [getF_setF_ne _ _ _ _ hkt, if_neg hkt]
        by_cases hki : k = "items"
        · subst hki
          rw [setF_obj, getF_obj, objGet_objSet_self]
          rw [if_neg (fun hc => by
            rw [hA.1] at hc
            exact absurd hc.1 (by decide))]
          rw [if_pos ⟨hA.1, hfalsy, rfl⟩]
        · rw [getF_setF_ne _ _ _ _ hki]
          rw [if_neg (fun hc => by
            rw [hA.1] at hc
            exact absurd hc.1 (by decide))]
          rw [if_neg (fun hc => hki hc.2.2)]
          rw [getF_obj, hfilterGet]
          by_cases hcont : (TYPE_ALLOWED_PROPERTIES t).contains k = false
          · rw [if_pos hcont]
            have hknm : k ∉ TYPE_ALLOWED_PROPERTIES t := by
              simpa using hcont
            cases objGet cs k <;> simp [hkt, hknm]
          · rw [if_neg hcont]
            have hct : (TYPE_ALLOWED_PROPERTIES t).contains k = true := by
              cases hb : (TYPE_ALLOWED_PROPERTIES t).contains k
              · exact absurd hb hcont
              · rfl
            have hkm : k ∈ TYPE_ALLOWED_PROPERTIES t := by simpa using hct
            rw [getF_obj]
            cases objGet cs k <;> simp [hkm]
    · have hC : cleanupPropertiesForType (Json.obj cs) t =
          Json.obj (cs.filter (fun p =>
            p.1 = "type" || (TYPE_ALLOWED_PROPERTIES t).contains p.1)) := by
        rw [hcleanup]
        dsimp only
        rw [if_neg hP]
        rw [if_neg hA]
      rw [hC]
      by_cases hkt : k = "type"
      · subst hkt
        rw [setF_obj, getF_obj, objGet_objSet_self, if_pos rfl]
      · rw [getF_setF_ne _ _ _ _ hkt, if_neg hkt]
        rw [if_neg (fun hc => hP ⟨hc.1, by
          rw [hpropsEq hc.1]
          exact hc.2.1⟩)]
        rw [if_neg (fun hc => hA ⟨hc.1, by
          rw [hitemsEq hc.1]
          exact hc.2.1⟩)]
        rw [getF_obj, hfilterGet]
        by_cases hcont : (TYPE_ALLOWED_PROPERTIES t).contains k = false
        · rw [if_pos hcont]
          have hknm : k ∉ TYPE_ALLOWED_PROPERTIES t := by simpa using hcont
          cases objGet cs k <;> simp [hkt, hknm]
        · rw [if_neg hcont]
          have hct : (TYPE_ALLOWED_PROPERTIES t).contains k = true := by
            cases hb : (TYPE_ALLOWED_PROPERTIES t).contains k
            · exact absurd hb hcont
            · rfl
          have hkm : k ∈ TYPE_ALLOWED_PROPERTIES t := by simpa using hct
          rw [getF_obj]
          cases objGet cs k <;> simp [hkm]

/-- **C1 (counterexample)**: `SchemaProperties.tsx`'s `updateProperty`
with `field = "type"` violates both seeding clauses of the claim: changing
`{type:"string"}` to `object` seeds only `properties = {}` — there is no
`additionalProperties: false` — and changing it to `array` does not clear
`items` but seeds `items = {type: "string"}`. -/
theorem C1_counterexample :
    getF (updateProperty docKStr "" "k" "type" (some (.str "object")))
        "properties" =
      some (.obj [("k", .obj [("type", .str "object"),
                              ("properties", .obj [])])]) ∧
    getF (updateProperty docKStr "" "k" "type" (some (.str "array")))
        "properties" =
      some (.obj [("k", .obj [("type", .str "array"),
                              ("items", .obj [("type", .str "string")])])]) := by
  exact ⟨by decide, by decide⟩

/-- **C1 (amended)**: both type-change handlers set the new kind, keep
`title`/`description`, keep exactly the original fields legal for the new
kind and drop all others; they differ in the seeds.  The page.tsx handler
behaves as the claim states: `object` with no truthy `properties` seeds
`properties = {}` and `additionalProperties = false`, and `array` clears
`items` unconditionally.  The `SchemaProperties.tsx` handler
(`cleanupPropertiesForType` inside `updateProperty`) instead seeds only
`properties = {}` for `object` (no `additionalProperties`), and for
`array` keeps a truthy prior `items` and seeds `items = {type: "string"}`
when `items` is falsy — it never clears.  The last two conjuncts are the
claim's P3 example, which holds on both variants. -/
theorem C1_type_change_amended (cs : List (String × Json)) (t : String)
    (hnd : (objKeys cs).Nodup) (htp : t ∈ pageKinds) :
    (∀ k, getF (pageTypeChange (Json.obj cs) t) k =
      if k = "type" then some (.str t)
      else if t = "array" ∧ k = "items" then none
      else if t = "object" ∧
          optTruthy (getF (Json.obj cs) "properties") = false ∧
          k = "properties" then some (.obj [])
      else if t = "object" ∧
          optTruthy (getF (Json.obj cs) "properties") = false ∧
          k = "additionalProperties" then some (.bool false)
      else if k ≠ "title" ∧ k ≠ "description" ∧
          (pageTypeAllowedProperties t).contains k = false then none
      else getF (Json.obj cs) k) ∧
    (∀ k, getF (spTypeChange (Json.obj cs) t) k =
      if k = "type" then some (.str t)
      else if t = "object" ∧
          optTruthy (getF (Json.obj cs) "properties") = false ∧
          k = "properties" then some (.obj [])
      else if t = "array" ∧
          optTruthy (getF (Json.obj cs) "items") = false ∧
          k = "items" then some (.obj [("type", .str "string")])
      else if (TYPE_ALLOWED_PROPERTIES t).contains k = false then none
      else getF (Json.obj cs) k) ∧
    (∀ (fs ps : List (String × Json)) (key : String),
      objGet fs "properties" = some (.obj ps) → objHas ps key = true →
      getF (updateProperty (Json.obj fs) "" key "type" (some (.str t)))
          "properties" =
        some (.obj (objSet ps key
          (spTypeChange ((objGet ps key).getD .null) t)))) ∧
    getF (updateProperty docP3 "" "k" "type" (some (.str "boolean")))
        "properties" =
      some (.obj [("k", .obj [("type", .str "boolean"),
                              ("title", .str "T")])]) ∧
    pageTypeChange (.obj [("type", .str "string"), ("minLength", .num 3),
        ("title", .str "T")]) "boolean" =
      .obj [("type", .str "boolean"), ("title", .str "T")] := by
  refine ⟨fun k => pageTypeChange_getF cs t k,
    fun k => spTypeChange_getF cs t k hnd, ?_, by decide, by decide⟩
  intro fs ps key hp2 hk2
  simp [updateProperty, applyAtPath, updatePropertyMut, spTypeChange,
    getF_obj, setF_obj, hp2, hk2, objGet_objSet_self]

/-- Witness for C1 (amended): changing `{type:"string"}` to `object`
seeds `additionalProperties = false` in the page variant but not in the
SchemaProperties variant, and to `array` the SchemaProperties variant
seeds `items = {type:"string"}`. -/
theorem C1_type_change_amended_witness :
    getF (pageTypeChange (Json.obj [("type", Json.str "string")]) "object")
        "additionalProperties" = some (.bool false) ∧
    getF (spTypeChange (Json.obj [("type", Json.str "string")]) "object")
        "additionalProperties" = none ∧
    getF (spTypeChange (Json.obj [("type", Json.str "string")]) "array")
        "items" = some (.obj [("type", .str "string")]) := by
  have h1 := C1_type_change_amended [("type", .str "string")] "object"
    (by decide) (by decide)
  have h2 := C1_type_change_amended [("type", .str "string")] "array"
    (by decide) (by decide)
  refine ⟨?_, ?_, ?_⟩
  · rw [h1.1 "additionalProperties"]
    decide
  · rw [h1.2.1 "additionalProperties"]
    decide
  · rw [h2.2.1 "items"]
    decide

/-! ## C7 — no-op guards and stale focus -/

/-- **C7 (counterexample)**: the focus path `zzz.b` does not resolve
against `docDeep` (`getCurrentSchema` returns null), yet
`removeProperty` run with that focus path still mutates the document: the
traversal skips the non-matching segment `zzz` and the later segment `b`
still matches a root property, whose child `x` gets deleted. -/
theorem C7_counterexample :
    getCurrentSchema docDeep "zzz.b" = none ∧
    removeProperty docDeep "zzz.b" "x" ≠ docDeep := by
  exact ⟨by decide, by decide⟩

/-- The focus node has `key` among its properties (the guard
`current.properties && key in current.properties` of the callbacks). -/
def focusHasKey (node : Json) (key : String) : Bool :=
  match getF node "properties" with
  | some (.obj ps) => objHas ps key
  | _ => false

/-- The focus node's `required` array mentions `key`. -/
def requiredMentions (node : Json) (key : String) : Bool :=
  match getF node "required" with
  | some (.arr rs) => decide ((Json.str key) ∈ rs)
  | _ => false

/-- **C7 (amended)**: the value-level guards do hold — `renameProperty`
with an empty/whitespace-only or unchanged new name returns the root
unchanged at any focus path, and at root focus `updateProperty`,
`removeProperty` (given that `required` does not mention the key, as the
subset invariant guarantees) and `renameProperty` targeting an absent key
all return the root unchanged; all operations are total functions.  A
*non-resolving* focus path, however, is not guaranteed to be a no-op (see
the counterexample). -/
theorem C7_noop_guards_amended :
    (∀ (root : Json) (path o n : String), (o = n ∨ jsTrim n = "") →
      renameProperty root path o n = root) ∧
    (∀ (fs : List (String × Json)) (key field : String)
        (v : Option Json), focusHasKey (Json.obj fs) key = false →
      updateProperty (Json.obj fs) "" key field v = Json.obj fs) ∧
    (∀ (fs : List (String × Json)) (key : String),
      focusHasKey (Json.obj fs) key = false →
      requiredMentions (Json.obj fs) key = false →
      removeProperty (Json.obj fs) "" key = Json.obj fs) ∧
    (∀ (fs : List (String × Json)) (o n : String),
      focusHasKey (Json.obj fs) o = false →
      renameProperty (Json.obj fs) "" o n = Json.obj fs) := by
  refine ⟨?_, ?_, ?_, ?_⟩
  · intro root path o n h
    simp [renameProperty, h]
  · intro fs key field v h
    cases hv : objGet fs "properties" with
    | none =>
      simp [updateProperty, applyAtPath, updatePropertyMut, getF_obj, hv]
    | some pv =>
      cases pv <;>
        simp [updateProperty, applyAtPath, updatePropertyMut, getF_obj, hv]
      rename_i ps
      simp [focusHasKey, getF_obj, hv] at h
      simp [h]
  · intro fs key h hr
    have hnode1 :
        (match getF (Json.obj fs) "properties" with
          | some (.obj ps) =>
              if objHas ps key then
                setF (Json.obj fs) "properties" (.obj (objDel ps key))
              else Json.obj fs
          | _ => Json.obj fs) = Json.obj fs := by
      cases hv : objGet fs "properties" with
      | none => simp [getF_obj, hv]
      | some pv =>
        cases pv <;> simp [getF_obj, hv]
        rename_i ps
        simp [focusHasKey, getF_obj, hv] at h
        simp [h]
    cases hq : objGet fs "required" with
    | none =>
      simp [removeProperty, applyAtPath, removePropertyMut]
      rw [hnode1]
      simp [getF_obj, hq]
    | some rv =>
      cases rv <;>
        (simp [removeProperty, applyAtPath, removePropertyMut]
         rw [hnode1]
         simp [getF_obj, hq])
      rename_i rs
      simp [requiredMentions, getF_obj, hq] at hr
      have hfilter : rs.filter (fun r => !decide (r = Json.str key)) = rs := by
        rw [List.filter_eq_self]
        intro a ha
        have : a ≠ Json.str key := fun he => hr (he ▸ ha)
        simp [this]
      rw [hfilter, setF_obj, objSet_eq_of_objGet fs "required" _ hq]
  · intro fs o n h
    by_cases hg : o = n ∨ jsTrim n = ""
    · simp [renameProperty, hg]
    · cases hv : objGet fs "properties" with
      | none =>
        simp [renameProperty, hg, applyAtPath, renamePropertyMut, getF_obj,
          hv]
      | some pv =>
        cases pv <;>
          simp [renameProperty, hg, applyAtPath, renamePropertyMut, getF_obj,
            hv]
        rename_i ps
        simp [focusHasKey, getF_obj, hv] at h
        simp [h]

/-- Witness for C7 (amended) at concrete documents. -/
theorem C7_noop_guards_amended_witness :
    renameProperty docAbc "" "b" "  " = docAbc ∧
    updateProperty docAge "" "zzz" "title" (some (.str "x")) = docAge ∧
    removeProperty docReqA "" "zzz" = docReqA ∧
    renameProperty docAge "" "zzz" "w" = docAge :=
  ⟨C7_noop_guards_amended.1 docAbc "" "b" "  " (by decide),
   C7_noop_guards_amended.2.1 _ "zzz" "title" (some (.str "x")) (by decide),
   C7_noop_guards_amended.2.2.1 _ "zzz" (by decide) (by decide),
   C7_noop_guards_amended.2.2.2 _ "zzz" "w" (by decide)⟩

/-! ## C4 — the required-subset invariant -/

/-- The `properties` map of an object node's field list (`[]` when
`properties` is absent or not an object). -/
def propsOf (fs : List (String × Json)) : List (String × Json) :=
  match objGet fs "properties" with
  | some (.obj ps) => ps
  | _ => []

/-- `required ⊆ properties keys` at one object node: whenever `required`
is an array, each of its entries is a string naming a key of the node's
`properties` map. -/
def reqOK (fs : List (String × Json)) : Bool :=
  match objGet fs "required" with
  | some (.arr rs) =>
      rs.all (fun r =>
        match r with
        | .str s => objHas (propsOf fs) s
        | _ => false)
  | _ => true

mutual

/-- The data-model invariant: `reqOK` holds at the node and recursively at
every schema node reachable from it — the values of the `properties`
member and the `items` member (the only members the editor treats as
child schemas). -/
def schemaInv : Json → Bool
  | .obj fs => reqOK fs && schemaInvMembers fs
  | _ => true

def schemaInvMembers : List (String × Json) → Bool
  | [] => true
  | (k, v) :: fs =>
      (if k = "properties" then
         match v with
         | .obj ps => schemaInvFields ps
         | _ => true
       else if k = "items" then schemaInv v
       else true) && schemaInvMembers fs

def schemaInvFields : List (String × Json) → Bool
  | [] => true
  | (_, v) :: ps => schemaInv v && schemaInvFields ps

end

/-- The per-member check performed by `schemaInvMembers`: the values of a
`properties` member and an `items` member must satisfy the invariant;
members under any other key are unconstrained. -/
def memberOK (k : String) (v : Json) : Bool :=
  if k = "properties" then
    match v with
    | .obj ps => schemaInvFields ps
    | _ => true
  else if k = "items" then schemaInv v
  else true

theorem schemaInv_obj (fs : List (String × Json)) :
    schemaInv (.obj fs) = (reqOK fs && schemaInvMembers fs) := by
  rw [schemaInv]

theorem schemaInvMembers_cons (k : String) (v : Json)
    (fs : List (String × Json)) :
    schemaInvMembers ((k, v) :: fs) =
      (memberOK k v && schemaInvMembers fs) := by
  cases v <;> rfl

theorem schemaInvFields_cons (k : String) (v : Json)
    (ps : List (String × Json)) :
    schemaInvFields ((k, v) :: ps) = (schemaInv v && schemaInvFields ps) := by
  rw [schemaInvFields]

theorem schemaInvMembers_iff (fs : List (String × Json)) :
    schemaInvMembers fs = true ↔ ∀ p ∈ fs, memberOK p.1 p.2 = true := by
  induction fs with
  | nil => simp [schemaInvMembers]
  | cons p rest ih =>
    obtain ⟨k, v⟩ := p
    rw [schemaInvMembers_cons, Bool.and_eq_true, ih]
    simp

theorem schemaInvFields_iff (ps : List (String × Json)) :
    schemaInvFields ps = true ↔ ∀ p ∈ ps, schemaInv p.2 = true := by
  induction ps with
  | nil => simp [schemaInvFields]
  | cons p rest ih =>
    obtain ⟨k, v⟩ := p
    rw [schemaInvFields_cons, Bool.and_eq_true, ih]
    simp

theorem memberOK_required (v : Json) : memberOK "required" v = true := by
  have h1 : ("required" : String) ≠ "properties" := by decide
  have h2 : ("required" : String) ≠ "items" := by decide
  simp [memberOK, h1, h2]

theorem memberOK_properties_obj (ps : List (String × Json)) :
    memberOK "properties" (.obj ps) = schemaInvFields ps := by
  simp [memberOK]

theorem memberOK_items (v : Json) : memberOK "items" v = schemaInv v := by
  have h1 : ("items" : String) ≠ "properties" := by decide
  simp [memberOK, h1]

theorem reqOK_iff (fs : List (String × Json)) :
    reqOK fs = true ↔
      ∀ rs, objGet fs "required" = some (.arr rs) →
        ∀ r ∈ rs, ∃ s, r = .str s ∧ s ∈ objKeys (propsOf fs) := by
  unfold reqOK
  cases hq : objGet fs "required" with
  | none => simp
  | some v =>
    cases v with
    | arr rs =>
      simp only [List.all_eq_true]
      constructor
      · intro h rs0 hrs0
        have hrs : rs0 = rs := by
          injection hrs0 with hv
          injection hv with hv2
          exact hv2.symm
        subst hrs
        intro r hr
        have h2 := h r hr
        cases r with
        | str s => exact ⟨s, rfl, (objHas_iff _ _).mp h2⟩
        | null => exact absurd h2 (by simp)
        | bool b => exact absurd h2 (by simp)
        | num n => exact absurd h2 (by simp)
        | arr xs => exact absurd h2 (by simp)
        | obj gs => exact absurd h2 (by simp)
      · intro h r hr
        obtain ⟨s, rfl, hs⟩ := h rs rfl r hr
        exact (objHas_iff _ _).mpr hs
    | null => simp
    | bool b => simp
    | num n => simp
    | str s => simp
    | obj gs => simp

theorem propsOf_eq (fs ps : List (String × Json))
    (h : objGet fs "properties" = some (.obj ps)) : propsOf fs = ps := by
  unfold propsOf
  rw [h]

theorem propsOf_objSet_props (fs : List (String × Json))
    (ps : List (String × Json)) :
    propsOf (objSet fs "properties" (.obj ps)) = ps := by
  unfold propsOf
  rw [objGet_objSet_self]

theorem propsOf_objSet_ne (fs : List (String × Json)) (k : String)
    (v : Json) (h : k ≠ "properties") :
    propsOf (objSet fs k v) = propsOf fs := by
  unfold propsOf
  rw [objGet_objSet_ne _ _ _ _ (Ne.symm h)]

theorem mem_objSet_elim (fs : List (String × Json)) (k : String) (v : Json)
    (q : String × Json) (h : q ∈ objSet fs k v) : q ∈ fs ∨ q = (k, v) := by
  induction fs with
  | nil =>
    simp [objSet] at h
    exact Or.inr h
  | cons p rest ih =>
    obtain ⟨k1, v1⟩ := p
    by_cases h1 : k1 = k
    · simp only [objSet, if_pos h1] at h
      rcases List.mem_cons.mp h with h2 | h2
      · exact Or.inr h2
      · exact Or.inl (List.mem_cons_of_mem _ h2)
    · simp only [objSet, if_neg h1] at h
      rcases List.mem_cons.mp h with h2 | h2
      · exact Or.inl (by simp [h2])
      · rcases ih h2 with h3 | h3
        · exact Or.inl (List.mem_cons_of_mem _ h3)
        · exact Or.inr h3

theorem objSet_objSet_same (fs : List (String × Json)) (k : String)
    (v w : Json) : objSet (objSet fs k v) k w = objSet fs k w := by
  induction fs with
  | nil => simp [objSet]
  | cons p rest ih =>
    obtain ⟨k1, v1⟩ := p
    by_cases h : k1 = k <;> simp [objSet, h, ih]

theorem mem_objKeys_objDel_of_ne (fs : List (String × Json)) (k k' : String)
    (h : k' ∈ objKeys fs) (hne : k' ≠ k) :
    k' ∈ objKeys (objDel fs k) := by
  have h1 : objGet (objDel fs k) k' = objGet fs k' := objGet_objDel_ne fs k k' hne
  rcases hv : objGet fs k' with _ | v
  · exact absurd ((objGet_eq_none_iff fs k').mp hv) (by simpa using h)
  · have hmem : (k', v) ∈ objDel fs k := objGet_mem _ _ _ (by rw [h1, hv])
    exact List.mem_map_of_mem Prod.fst hmem

theorem objHas_some (fs : List (String × Json)) (k : String)
    (h : objHas fs k = true) : ∃ v, objGet fs k = some v := by
  rcases hv : objGet fs k with _ | v
  · exact absurd ((objHas_iff _ _).mp h) ((objGet_eq_none_iff _ _).mp hv)
  · exact ⟨v, rfl⟩

theorem schemaInvMembers_objSet (fs : List (String × Json)) (k : String)
    (v : Json) (hfs : schemaInvMembers fs = true)
    (hv : memberOK k v = true) :
    schemaInvMembers (objSet fs k v) = true := by
  rw [schemaInvMembers_iff] at hfs ⊢
  intro p hp
  rcases mem_objSet_elim fs k v p hp with h | h
  · exact hfs p h
  · rw [h]
    exact hv

theorem schemaInvFields_objSet (ps : List (String × Json)) (k : String)
    (v : Json) (hps : schemaInvFields ps = true) (hv : schemaInv v = true) :
    schemaInvFields (objSet ps k v) = true := by
  rw [schemaInvFields_iff] at hps ⊢
  intro p hp
  rcases mem_objSet_elim ps k v p hp with h | h
  · exact hps p h
  · rw [h]
    exact hv

theorem schemaInvFields_objDel (ps : List (String × Json)) (k : String)
    (hps : schemaInvFields ps = true) :
    schemaInvFields (objDel ps k) = true := by
  rw [schemaInvFields_iff] at hps ⊢
  intro p hp
  exact hps p (List.mem_of_mem_filter hp)

theorem memberOK_of_objGet (fs : List (String × Json)) (k : String)
    (v : Json) (hm : schemaInvMembers fs = true)
    (hg : objGet fs k = some v) : memberOK k v = true :=
  (schemaInvMembers_iff fs).mp hm (k, v) (objGet_mem fs k v hg)

theorem schemaInvFields_of_props (fs ps : List (String × Json))
    (hm : schemaInvMembers fs = true)
    (hg : objGet fs "properties" = some (.obj ps)) :
    schemaInvFields ps = true := by
  have h := memberOK_of_objGet fs _ _ hm hg
  rwa [memberOK_properties_obj] at h

theorem schemaInv_of_fields (ps : List (String × Json)) (p : String)
    (c : Json) (hf : schemaInvFields ps = true) (hg : objGet ps p = some c) :
    schemaInv c = true :=
  (schemaInvFields_iff ps).mp hf (p, c) (objGet_mem ps p c hg)


theorem reqOK_objSet_other (fs : List (String × Json)) (k : String)
    (v : Json) (hk1 : k ≠ "required") (hk2 : k ≠ "properties")
    (h : reqOK fs = true) : reqOK (objSet fs k v) = true := by
  rw [reqOK_iff] at h ⊢
  intro rs h0 r hr
  rw [objGet_objSet_ne _ _ _ _ (Ne.symm hk1)] at h0
  obtain ⟨s, rfl, hs⟩ := h rs h0 r hr
  refine ⟨s, rfl, ?_⟩
  rwa [propsOf_objSet_ne _ _ _ hk2]

/-- Assigning the `properties` member to a map whose key set covers the
old one, with invariant-satisfying values, preserves the node invariant. -/
theorem schemaInv_setProps (fs ps' : List (String × Json))
    (hreqfs : reqOK fs = true)
    (hm : schemaInvMembers fs = true)
    (hps : schemaInvFields ps' = true)
    (hkeys : ∀ s, s ∈ objKeys (propsOf fs) → s ∈ objKeys ps') :
    schemaInv (.obj (objSet fs "properties" (.obj ps'))) = true := by
  rw [schemaInv_obj, Bool.and_eq_true]
  constructor
  · rw [reqOK_iff]
    intro rs h0 r hr
    rw [objGet_objSet_ne _ _ _ _ (by decide)] at h0
    obtain ⟨s, rfl, hs⟩ := (reqOK_iff fs).mp hreqfs rs h0 r hr
    refine ⟨s, rfl, ?_⟩
    rw [propsOf_objSet_props]
    exact hkeys s hs
  · apply schemaInvMembers_objSet _ _ _ hm
    rw [memberOK_properties_obj]
    exact hps

/-- Assigning the `properties` member when the node's `required` member is
not an array preserves the node invariant (no key-coverage needed). -/
theorem schemaInv_setProps_noReq (fs ps' : List (String × Json))
    (hm : schemaInvMembers fs = true)
    (hps : schemaInvFields ps' = true)
    (hnone : ∀ rs, objGet fs "required" ≠ some (.arr rs)) :
    schemaInv (.obj (objSet fs "properties" (.obj ps'))) = true := by
  rw [schemaInv_obj, Bool.and_eq_true]
  constructor
  · rw [reqOK_iff]
    intro rs h0 r hr
    rw [objGet_objSet_ne _ _ _ _ (by decide)] at h0
    exact absurd h0 (hnone rs)
  · apply schemaInvMembers_objSet _ _ _ hm
    rw [memberOK_properties_obj]
    exact hps

/-- Assigning the `required` member to an array of strings naming keys of
the (unchanged) `properties` map preserves the node invariant. -/
theorem schemaInv_setReq (fs : List (String × Json)) (rs' : List Json)
    (hm : schemaInvMembers fs = true)
    (hreq : ∀ r ∈ rs', ∃ s, r = .str s ∧ s ∈ objKeys (propsOf fs)) :
    schemaInv (.obj (objSet fs "required" (.arr rs'))) = true := by
  rw [schemaInv_obj, Bool.and_eq_true]
  constructor
  · rw [reqOK_iff]
    intro rs0 h0 r hr
    rw [objGet_objSet_self] at h0
    have hrs : rs0 = rs' := by
      injection h0 with hv
      injection hv with hv2
      exact hv2.symm
    subst hrs
    obtain ⟨s, rfl, hs⟩ := hreq r hr
    refine ⟨s, rfl, ?_⟩
    rwa [propsOf_objSet_ne _ _ _ (by decide)]
  · exact schemaInvMembers_objSet _ _ _ hm (memberOK_required _)

/-- Assigning both the `properties` member and then the `required` member
preserves the node invariant when the new required entries name keys of
the new map. -/
theorem schemaInv_setProps_setReq (fs ps' : List (String × Json))
    (rs' : List Json)
    (hm : schemaInvMembers fs = true)
    (hps : schemaInvFields ps' = true)
    (hreq : ∀ r ∈ rs', ∃ s, r = .str s ∧ s ∈ objKeys ps') :
    schemaInv (.obj (objSet (objSet fs "properties" (.obj ps'))
      "required" (.arr rs'))) = true := by
  apply schemaInv_setReq
  · apply schemaInvMembers_objSet _ _ _ hm
    rw [memberOK_properties_obj]
    exact hps
  · intro r hr
    obtain ⟨s, rfl, hs⟩ := hreq r hr
    refine ⟨s, rfl, ?_⟩
    rwa [propsOf_objSet_props]

theorem setPropChild_obj (fs : List (String × Json)) (p : String)
    (c : Json) :
    setPropChild (.obj fs) p c =
      (match objGet fs "properties" with
       | some (.obj ps) => setF (.obj fs) "properties" (.obj (objSet ps p c))
       | _ => .obj fs) := rfl

theorem getItems_obj (fs : List (String × Json)) :
    getItems (.obj fs) = (objGet fs "items").getD .null := rfl

theorem hasPropChild_obj (fs : List (String × Json)) (p : String) :
    hasPropChild (.obj fs) p =
      (match objGet fs "properties" with
       | some (.obj ps) => objHas ps p
       | _ => false) := rfl

theorem getPropChild_obj (fs : List (String × Json)) (p : String) :
    getPropChild (.obj fs) p =
      (match objGet fs "properties" with
       | some (.obj ps) => (objGet ps p).getD .null
       | _ => .null) := rfl

theorem hasPropChild_elim (fs : List (String × Json)) (p : String)
    (h : hasPropChild (.obj fs) p = true) :
    ∃ ps, objGet fs "properties" = some (.obj ps) ∧ objHas ps p = true := by
  rw [hasPropChild_obj] at h
  cases hq : objGet fs "properties" with
  | none =>
    rw [hq] at h
    exact Bool.noConfusion h
  | some v =>
    rw [hq] at h
    cases v with
    | obj ps => exact ⟨ps, rfl, h⟩
    | null => exact Bool.noConfusion h
    | bool b => exact Bool.noConfusion h
    | num n => exact Bool.noConfusion h
    | str s => exact Bool.noConfusion h
    | arr xs => exact Bool.noConfusion h

theorem getPropChild_eq (fs ps : List (String × Json)) (p : String)
    (c : Json) (hq : objGet fs "properties" = some (.obj ps))
    (hc : objGet ps p = some c) : getPropChild (.obj fs) p = c := by
  rw [getPropChild_obj, hq]
  show (objGet ps p).getD .null = c
  rw [hc]
  rfl

/-- `setPropChild` preserves the invariant whenever the new child does. -/
theorem schemaInv_setPropChild (node : Json) (p : String) (c : Json)
    (h : schemaInv node = true) (hc : schemaInv c = true) :
    schemaInv (setPropChild node p c) = true := by
  cases node with
  | obj fs =>
    rw [schemaInv_obj, Bool.and_eq_true] at h
    obtain ⟨hreq, hmem⟩ := h
    rw [setPropChild_obj]
    cases hq : objGet fs "properties" with
    | none =>
      show schemaInv (.obj fs) = true
      rw [schemaInv_obj, Bool.and_eq_true]
      exact ⟨hreq, hmem⟩
    | some v =>
      cases v with
      | obj ps =>
        show schemaInv (setF (.obj fs) "properties" (.obj (objSet ps p c))) = true
        simp only [setF]
        apply schemaInv_setProps fs _ hreq hmem
        · exact schemaInvFields_objSet ps p c
            (schemaInvFields_of_props fs ps hmem hq) hc
        · intro s hs
          rw [propsOf_eq fs ps hq] at hs
          exact mem_objKeys_objSet ps p s c hs
      | null =>
        show schemaInv (.obj fs) = true
        rw [schemaInv_obj, Bool.and_eq_true]
        exact ⟨hreq, hmem⟩
      | bool b =>
        show schemaInv (.obj fs) = true
        rw [schemaInv_obj, Bool.and_eq_true]
        exact ⟨hreq, hmem⟩
      | num n =>
        show schemaInv (.obj fs) = true
        rw [schemaInv_obj, Bool.and_eq_true]
        exact ⟨hreq, hmem⟩
      | str s =>
        show schemaInv (.obj fs) = true
        rw [schemaInv_obj, Bool.and_eq_true]
        exact ⟨hreq, hmem⟩
      | arr xs =>
        show schemaInv (.obj fs) = true
        rw [schemaInv_obj, Bool.and_eq_true]
        exact ⟨hreq, hmem⟩
  | null => exact h
  | bool b => exact h
  | num n => exact h
  | str s => exact h
  | arr xs => exact h

/-- An existing property child of an invariant-satisfying node satisfies
the invariant. -/
theorem schemaInv_getPropChild (node : Json) (p : String)
    (h : schemaInv node = true) (hp : hasPropChild node p = true) :
    schemaInv (getPropChild node p) = true := by
  cases node with
  | obj fs =>
    rw [schemaInv_obj, Bool.and_eq_true] at h
    obtain ⟨hreq, hmem⟩ := h
    obtain ⟨ps, hq, hhas⟩ := hasPropChild_elim fs p hp
    obtain ⟨c, hc⟩ := objHas_some ps p hhas
    rw [getPropChild_eq fs ps p c hq hc]
    exact schemaInv_of_fields ps p c (schemaInvFields_of_props fs ps hmem hq) hc
  | null => exact absurd hp (by simp [hasPropChild, getF])
  | bool b => exact absurd hp (by simp [hasPropChild, getF])
  | num n => exact absurd hp (by simp [hasPropChild, getF])
  | str s => exact absurd hp (by simp [hasPropChild, getF])
  | arr xs => exact absurd hp (by simp [hasPropChild, getF])

/-- Assigning `items` preserves the invariant whenever the new value does. -/
theorem schemaInv_setItems (node : Json) (c : Json)
    (h : schemaInv node = true) (hc : schemaInv c = true) :
    schemaInv (setF node "items" c) = true := by
  cases node with
  | obj fs =>
    rw [schemaInv_obj, Bool.and_eq_true] at h
    obtain ⟨hreq, hmem⟩ := h
    simp only [setF]
    rw [schemaInv_obj, Bool.and_eq_true]
    constructor
    · exact reqOK_objSet_other fs "items" c (by decide) (by decide) hreq
    · apply schemaInvMembers_objSet _ _ _ hmem
      rw [memberOK_items]
      exact hc
  | null => exact hc.symm ▸ h
  | bool b => exact h
  | num n => exact h
  | str s => exact h
  | arr xs => exact h

/-- A present (truthy) `items` member of an invariant-satisfying node
satisfies the invariant. -/
theorem schemaInv_getItems (node : Json) (h : schemaInv node = true)
    (hi : optTruthy (getF node "items") = true) :
    schemaInv (getItems node) = true := by
  cases node with
  | obj fs =>
    rw [schemaInv_obj, Bool.and_eq_true] at h
    obtain ⟨hreq, hmem⟩ := h
    rw [getItems_obj]
    cases hq : objGet fs "items" with
    | none =>
      rw [show getF (.obj fs) "items" = objGet fs "items" from rfl, hq] at hi
      exact absurd hi (by simp [optTruthy])
    | some v =>
      show schemaInv v = true
      have hv := memberOK_of_objGet fs "items" v hmem hq
      rwa [memberOK_items] at hv
  | null => exact absurd hi (by simp [getF, optTruthy])
  | bool b => exact absurd hi (by simp [getF, optTruthy])
  | num n => exact absurd hi (by simp [getF, optTruthy])
  | str s => exact absurd hi (by simp [getF, optTruthy])
  | arr xs => exact absurd hi (by simp [getF, optTruthy])

theorem renameBuild_mem_keys (o n : String) (ps acc : List (String × Json))
    (s : String)
    (h : s ∈ objKeys acc ∨ ∃ p ∈ ps, (if p.1 = o then n else p.1) = s) :
    s ∈ objKeys (ps.foldl
      (fun acc p => objSet acc (if p.1 = o then n else p.1) p.2) acc) := by
  induction ps generalizing acc with
  | nil =>
    rcases h with h | ⟨p, hp, _⟩
    · simpa using h
    · exact absurd hp (by simp)
  | cons q rest ih =>
    rw [List.foldl_cons]
    apply ih
    rcases h with h | ⟨p, hp, hpe⟩
    · exact Or.inl (mem_objKeys_objSet _ _ _ _ h)
    · rcases List.mem_cons.mp hp with heq | hp2
      · subst heq
        exact Or.inl (hpe ▸ self_mem_objKeys_objSet _ _ _)
      · exact Or.inr ⟨p, hp2, hpe⟩

theorem renameBuild_keys_new (o n : String) (ps : List (String × Json))
    (h : o ∈ objKeys ps) : n ∈ objKeys (renameBuild o n ps) := by
  unfold renameBuild
  apply renameBuild_mem_keys
  right
  have h2 : o ∈ ps.map Prod.fst := h
  obtain ⟨p, hp, hpe⟩ := List.mem_map.mp h2
  refine ⟨p, hp, ?_⟩
  rw [if_pos hpe]

theorem renameBuild_keys_old (o n s : String) (ps : List (String × Json))
    (h : s ∈ objKeys ps) (hs : s ≠ o) :
    s ∈ objKeys (renameBuild o n ps) := by
  unfold renameBuild
  apply renameBuild_mem_keys
  right
  have h2 : s ∈ ps.map Prod.fst := h
  obtain ⟨p, hp, hpe⟩ := List.mem_map.mp h2
  refine ⟨p, hp, ?_⟩
  rw [if_neg (by rw [hpe]; exact hs)]
  exact hpe

theorem renameBuild_mem_values (o n : String) (ps acc : List (String × Json))
    (q : String × Json)
    (h : q ∈ ps.foldl
      (fun acc p => objSet acc (if p.1 = o then n else p.1) p.2) acc) :
    (∃ p ∈ acc, p.2 = q.2) ∨ ∃ p ∈ ps, p.2 = q.2 := by
  induction ps generalizing acc with
  | nil => exact Or.inl ⟨q, by simpa using h, rfl⟩
  | cons p0 rest ih =>
    rw [List.foldl_cons] at h
    rcases ih _ h with ⟨p, hp, hpe⟩ | ⟨p, hp, hpe⟩
    · rcases mem_objSet_elim _ _ _ _ hp with h2 | h2
      · exact Or.inl ⟨p, h2, hpe⟩
      · refine Or.inr ⟨p0, List.mem_cons_self _ _, ?_⟩
        rw [h2] at hpe
        exact hpe
    · exact Or.inr ⟨p, List.mem_cons_of_mem _ hp, hpe⟩

theorem schemaInvFields_renameBuild (o n : String) (ps : List (String × Json))
    (h : schemaInvFields ps = true) :
    schemaInvFields (renameBuild o n ps) = true := by
  rw [schemaInvFields_iff] at h ⊢
  intro q hq
  rcases renameBuild_mem_values o n ps [] q hq with ⟨p, hp, _⟩ | ⟨p, hp, hpe⟩
  · exact absurd hp (by simp)
  · rw [← hpe]
    exact h p hp

/-- `addProperty`'s focus-node mutation preserves the invariant: the new
map's keys cover the old ones and the inserted `{type: "string"}` child
satisfies the invariant. -/
theorem schemaInv_addPropertyMut (node : Json) (h : schemaInv node = true) :
    schemaInv (addPropertyMut node) = true := by
  cases node with
  | obj fs =>
    have h2 := h
    rw [schemaInv_obj, Bool.and_eq_true] at h2
    obtain ⟨hreq, hmem⟩ := h2
    have hstr : schemaInv (.obj [("type", .str "string")]) = true := by decide
    cases htr : optTruthy (objGet fs "properties") with
    | true =>
      cases hq : objGet fs "properties" with
      | none =>
        rw [hq] at htr
        simp [optTruthy] at htr
      | some v =>
        cases v with
        | obj ps =>
          have hres : addPropertyMut (.obj fs) =
              .obj (objSet fs "properties"
                (.obj (objSet ps ("newProperty" ++ natToDec (ps.length + 1))
                  (.obj [("type", .str "string")])))) := by
            simp [addPropertyMut, getF_obj, optTruthy, jsTruthy, hq, setF_obj]
          rw [hres]
          apply schemaInv_setProps fs _ hreq hmem
          · exact schemaInvFields_objSet ps _ _
              (schemaInvFields_of_props fs ps hmem hq) hstr
          · intro s hs
            rw [propsOf_eq fs ps hq] at hs
            exact mem_objKeys_objSet ps _ s _ hs
        | null =>
          rw [hq] at htr
          simp [optTruthy, jsTruthy] at htr
        | bool b =>
          rw [hq] at htr
          simp only [optTruthy, jsTruthy, decide_eq_true_eq] at htr
          have hres : addPropertyMut (.obj fs) = .obj fs := by
            simp [addPropertyMut, getF_obj, optTruthy, jsTruthy, htr, hq]
          rw [hres]; exact h
        | num m =>
          rw [hq] at htr
          simp only [optTruthy, jsTruthy, decide_eq_true_eq] at htr
          have hres : addPropertyMut (.obj fs) = .obj fs := by
            simp [addPropertyMut, getF_obj, optTruthy, jsTruthy, htr, hq]
          rw [hres]; exact h
        | str t =>
          rw [hq] at htr
          simp only [optTruthy, jsTruthy, decide_eq_true_eq] at htr
          have hres : addPropertyMut (.obj fs) = .obj fs := by
            simp [addPropertyMut, getF_obj, optTruthy, jsTruthy, htr, hq]
          rw [hres]; exact h
        | arr xs =>
          rw [hq] at htr
          have hres : addPropertyMut (.obj fs) = .obj fs := by
            simp [addPropertyMut, getF_obj, optTruthy, jsTruthy, htr, hq]
          rw [hres]; exact h
    | false =>
      have hres : addPropertyMut (.obj fs) =
          .obj (objSet (objSet fs "properties" (.obj []))
            "properties"
            (.obj [("newProperty" ++ natToDec 1,
              .obj [("type", .str "string")])])) := by
        simp [addPropertyMut, getF_obj, htr, setF_obj, objGet_objSet_self,
          objSet]
      rw [hres, objSet_objSet_same]
      have hpf : propsOf fs = [] := by
        unfold propsOf
        cases hq : objGet fs "properties" with
        | none => rfl
        | some v =>
          cases v with
          | obj ps =>
            rw [hq] at htr
            simp [optTruthy, jsTruthy] at htr
          | null => rfl
          | bool b => rfl
          | num m => rfl
          | str t => rfl
          | arr xs => rfl
      apply schemaInv_setProps fs _ hreq hmem
      · rw [schemaInvFields_cons, hstr]
        rfl
      · intro s hs
        rw [hpf] at hs
        exact absurd hs (by simp [objKeys_nil])
  | null => exact h
  | bool b => exact h
  | num m => exact h
  | str t => exact h
  | arr xs => exact h

/-- The required-array filter step applied on top of a field list whose
members are invariant and whose surviving required entries name keys of
its `properties` map yields an invariant node. -/
theorem schemaInv_reqFilter1 (fs1 : List (String × Json)) (key : String)
    (hmem1 : schemaInvMembers fs1 = true)
    (hok : ∀ rs, objGet fs1 "required" = some (.arr rs) →
        ∀ r ∈ rs, r ≠ .str key →
          ∃ s, r = .str s ∧ s ∈ objKeys (propsOf fs1)) :
    schemaInv (match objGet fs1 "required" with
      | some (.arr rs) =>
          setF (.obj fs1) "required" (.arr (rs.filter (fun r => r ≠ .str key)))
      | _ => .obj fs1) = true := by
  cases hr : objGet fs1 "required" with
  | none =>
    show schemaInv (.obj fs1) = true
    rw [schemaInv_obj, Bool.and_eq_true]
    refine ⟨(reqOK_iff fs1).mpr ?_, hmem1⟩
    intro rs h0
    rw [hr] at h0
    exact absurd h0 (by simp)
  | some w =>
    cases w with
    | arr rs =>
      show schemaInv (setF (.obj fs1) "required"
        (.arr (rs.filter (fun r => r ≠ .str key)))) = true
      simp only [setF]
      apply schemaInv_setReq fs1 _ hmem1
      intro r hrm
      have hm2 := List.mem_filter.mp hrm
      have hrne : r ≠ .str key := by simpa using hm2.2
      exact hok rs hr r hm2.1 hrne
    | null =>
      show schemaInv (.obj fs1) = true
      rw [schemaInv_obj, Bool.and_eq_true]
      refine ⟨(reqOK_iff fs1).mpr ?_, hmem1⟩
      intro rs h0
      rw [hr] at h0
      simp at h0
    | bool b =>
      show schemaInv (.obj fs1) = true
      rw [schemaInv_obj, Bool.and_eq_true]
      refine ⟨(reqOK_iff fs1).mpr ?_, hmem1⟩
      intro rs h0
      rw [hr] at h0
      simp at h0
    | num m =>
      show schemaInv (.obj fs1) = true
      rw [schemaInv_obj, Bool.and_eq_true]
      refine ⟨(reqOK_iff fs1).mpr ?_, hmem1⟩
      intro rs h0
      rw [hr] at h0
      simp at h0
    | str t =>
      show schemaInv (.obj fs1) = true
      rw [schemaInv_obj, Bool.and_eq_true]
      refine ⟨(reqOK_iff fs1).mpr ?_, hmem1⟩
      intro rs h0
      rw [hr] at h0
      simp at h0
    | obj gs =>
      show schemaInv (.obj fs1) = true
      rw [schemaInv_obj, Bool.and_eq_true]
      refine ⟨(reqOK_iff fs1).mpr ?_, hmem1⟩
      intro rs h0
      rw [hr] at h0
      simp at h0

/-- `removeProperty`'s focus-node mutation preserves the invariant: the
deleted key is filtered out of `required` in the same step, and all other
required entries keep naming surviving keys. -/
theorem schemaInv_removePropertyMut (key : String) (node : Json)
    (h : schemaInv node = true) :
    schemaInv (removePropertyMut key node) = true := by
  cases node with
  | obj fs =>
    have h2 := h
    rw [schemaInv_obj, Bool.and_eq_true] at h2
    obtain ⟨hreq, hmem⟩ := h2
    have hsame : ∀ rs, objGet fs "required" = some (.arr rs) →
        ∀ r ∈ rs, r ≠ .str key →
          ∃ s, r = .str s ∧ s ∈ objKeys (propsOf fs) := by
      intro rs h0 r hrm _
      exact (reqOK_iff fs).mp hreq rs h0 r hrm
    cases hq : objGet fs "properties" with
    | some v =>
      cases v with
      | obj ps =>
        cases hhas : objHas ps key with
        | true =>
          have hres : removePropertyMut key (.obj fs) =
              (match objGet (objSet fs "properties" (.obj (objDel ps key)))
                  "required" with
               | some (.arr rs) =>
                   setF (.obj (objSet fs "properties" (.obj (objDel ps key))))
                     "required" (.arr (rs.filter (fun r => r ≠ .str key)))
               | _ =>
                   .obj (objSet fs "properties" (.obj (objDel ps key)))) := by
            simp [removePropertyMut, getF_obj, hq, hhas, setF_obj]
          rw [hres]
          apply schemaInv_reqFilter1 _ key
          · apply schemaInvMembers_objSet _ _ _ hmem
            rw [memberOK_properties_obj]
            exact schemaInvFields_objDel ps key
              (schemaInvFields_of_props fs ps hmem hq)
          · intro rs h0 r hrm hrne
            rw [objGet_objSet_ne _ _ _ _ (by decide)] at h0
            obtain ⟨s, rfl, hs⟩ := (reqOK_iff fs).mp hreq rs h0 r hrm
            have hsk : s ≠ key := fun he => hrne (by rw [he])
            rw [propsOf_objSet_props]
            rw [propsOf_eq fs ps hq] at hs
            exact ⟨s, rfl, mem_objKeys_objDel_of_ne ps key s hs hsk⟩
        | false =>
          have hres : removePropertyMut key (.obj fs) =
              (match objGet fs "required" with
               | some (.arr rs) =>
                   setF (.obj fs) "required"
                     (.arr (rs.filter (fun r => r ≠ .str key)))
               | _ => .obj fs) := by
            simp [removePropertyMut, getF_obj, hq, hhas]
          rw [hres]
          exact schemaInv_reqFilter1 fs key hmem hsame
      | null =>
        have hres : removePropertyMut key (.obj fs) =
            (match objGet fs "required" with
             | some (.arr rs) =>
                 setF (.obj fs) "required"
                   (.arr (rs.filter (fun r => r ≠ .str key)))
             | _ => .obj fs) := by
          simp [removePropertyMut, getF_obj, hq]
        rw [hres]
        exact schemaInv_reqFilter1 fs key hmem hsame
      | bool b =>
        have hres : removePropertyMut key (.obj fs) =
            (match objGet fs "required" with
             | some (.arr rs) =>
                 setF (.obj fs) "required"
                   (.arr (rs.filter (fun r => r ≠ .str key)))
             | _ => .obj fs) := by
          simp [removePropertyMut, getF_obj, hq]
        rw [hres]
        exact schemaInv_reqFilter1 fs key hmem hsame
      | num m =>
        have hres : removePropertyMut key (.obj fs) =
            (match objGet fs "required" with
             | some (.arr rs) =>
                 setF (.obj fs) "required"
                   (.arr (rs.filter (fun r => r ≠ .str key)))
             | _ => .obj fs) := by
          simp [removePropertyMut, getF_obj, hq]
        rw [hres]
        exact schemaInv_reqFilter1 fs key hmem hsame
      | str t =>
        have hres : removePropertyMut key (.obj fs) =
            (match objGet fs "required" with
             | some (.arr rs) =>
                 setF (.obj fs) "required"
                   (.arr (rs.filter (fun r => r ≠ .str key)))
             | _ => .obj fs) := by
          simp [removePropertyMut, getF_obj, hq]
        rw [hres]
        exact schemaInv_reqFilter1 fs key hmem hsame
      | arr xs =>
        have hres : removePropertyMut key (.obj fs) =
            (match objGet fs "required" with
             | some (.arr rs) =>
                 setF (.obj fs) "required"
                   (.arr (rs.filter (fun r => r ≠ .str key)))
             | _ => .obj fs) := by
          simp [removePropertyMut, getF_obj, hq]
        rw [hres]
        exact schemaInv_reqFilter1 fs key hmem hsame
    | none =>
      have hres : removePropertyMut key (.obj fs) =
          (match objGet fs "required" with
           | some (.arr rs) =>
               setF (.obj fs) "required"
                 (.arr (rs.filter (fun r => r ≠ .str key)))
           | _ => .obj fs) := by
        simp [removePropertyMut, getF_obj, hq]
      rw [hres]
      exact schemaInv_reqFilter1 fs key hmem hsame
  | null => exact h
  | bool b => exact h
  | num m => exact h
  | str t => exact h
  | arr xs => exact h

/-- `renameProperty`'s focus-node mutation preserves the invariant: the
new map's keys are the relabeled old keys, and `required` entries are
relabeled in the same step. -/
theorem schemaInv_renamePropertyMut (o n : String) (node : Json)
    (h : schemaInv node = true) :
    schemaInv (renamePropertyMut o n node) = true := by
  cases node with
  | obj fs =>
    have h2 := h
    rw [schemaInv_obj, Bool.and_eq_true] at h2
    obtain ⟨hreq, hmem⟩ := h2
    have hne1 : ("required" : String) ≠ "properties" := by decide
    cases hq : objGet fs "properties" with
    | some v =>
      cases v with
      | obj ps =>
        cases hhas : objHas ps o with
        | true =>
          have hps1 : schemaInvFields (renameBuild o n ps) = true :=
            schemaInvFields_renameBuild o n ps
              (schemaInvFields_of_props fs ps hmem hq)
          cases hr : objGet fs "required" with
          | some w =>
            cases w with
            | arr rs =>
              have hres : renamePropertyMut o n (.obj fs) =
                  .obj (objSet
                    (objSet fs "properties" (.obj (renameBuild o n ps)))
                    "required"
                    (.arr (rs.map
                      (fun r => if r = .str o then .str n else r)))) := by
                simp [renamePropertyMut, getF_obj, hq, hhas, setF_obj,
                  objGet_objSet_ne _ _ _ _ hne1, hr]
              rw [hres]
              apply schemaInv_setProps_setReq fs _ _ hmem hps1
              intro r2 hr2
              obtain ⟨r, hrm, rfl⟩ := List.mem_map.mp hr2
              obtain ⟨s, rfl, hs⟩ := (reqOK_iff fs).mp hreq rs hr r hrm
              rw [propsOf_eq fs ps hq] at hs
              by_cases hso : s = o
              · subst hso
                rw [if_pos rfl]
                exact ⟨n, rfl,
                  renameBuild_keys_new s n ps ((objHas_iff ps s).mp hhas)⟩
              · rw [if_neg (fun he => hso (by injection he))]
                exact ⟨s, rfl, renameBuild_keys_old o n s ps hs hso⟩
            | null =>
              have hres : renamePropertyMut o n (.obj fs) =
                  .obj (objSet fs "properties"
                    (.obj (renameBuild o n ps))) := by
                simp [renamePropertyMut, getF_obj, hq, hhas, setF_obj,
                  objGet_objSet_ne _ _ _ _ hne1, hr]
              rw [hres]
              apply schemaInv_setProps_noReq fs _ hmem hps1
              intro rs0 hcontra
              rw [hr] at hcontra
              simp at hcontra
            | bool b =>
              have hres : renamePropertyMut o n (.obj fs) =
                  .obj (objSet fs "properties"
                    (.obj (renameBuild o n ps))) := by
                simp [renamePropertyMut, getF_obj, hq, hhas, setF_obj,
                  objGet_objSet_ne _ _ _ _ hne1, hr]
              rw [hres]
              apply schemaInv_setProps_noReq fs _ hmem hps1
              intro rs0 hcontra
              rw [hr] at hcontra
              simp at hcontra
            | num m =>
              have hres : renamePropertyMut o n (.obj fs) =
                  .obj (objSet fs "properties"
                    (.obj (renameBuild o n ps))) := by
                simp [renamePropertyMut, getF_obj, hq, hhas, setF_obj,
                  objGet_objSet_ne _ _ _ _ hne1, hr]
              rw [hres]
              apply schemaInv_setProps_noReq fs _ hmem hps1
              intro rs0 hcontra
              rw [hr] at hcontra
              simp at hcontra
            | str t =>
              have hres : renamePropertyMut o n (.obj fs) =
                  .obj (objSet fs "properties"
                    (.obj (renameBuild o n ps))) := by
                simp [renamePropertyMut, getF_obj, hq, hhas, setF_obj,
                  objGet_objSet_ne _ _ _ _ hne1, hr]
              rw [hres]
              apply schemaInv_setProps_noReq fs _ hmem hps1
              intro rs0 hcontra
              rw [hr] at hcontra
              simp at hcontra
            | obj gs =>
              have hres : renamePropertyMut o n (.obj fs) =
                  .obj (objSet fs "properties"
                    (.obj (renameBuild o n ps))) := by
                simp [renamePropertyMut, getF_obj, hq, hhas, setF_obj,
                  objGet_objSet_ne _ _ _ _ hne1, hr]
              rw [hres]
              apply schemaInv_setProps_noReq fs _ hmem hps1
              intro rs0 hcontra
              rw [hr] at hcontra
              simp at hcontra
          | none =>
            have hres : renamePropertyMut o n (.obj fs) =
                .obj (objSet fs "properties"
                  (.obj (renameBuild o n ps))) := by
              simp [renamePropertyMut, getF_obj, hq, hhas, setF_obj,
                objGet_objSet_ne _ _ _ _ hne1, hr]
            rw [hres]
            apply schemaInv_setProps_noReq fs _ hmem hps1
            intro rs0 hcontra
            rw [hr] at hcontra
            exact Option.noConfusion hcontra
        | false =>
          have hres : renamePropertyMut o n (.obj fs) = .obj fs := by
            simp [renamePropertyMut, getF_obj, hq, hhas]
          rw [hres]; exact h
      | null =>
        have hres : renamePropertyMut o n (.obj fs) = .obj fs := by
          simp [renamePropertyMut, getF_obj, hq]
        rw [hres]; exact h
      | bool b =>
        have hres : renamePropertyMut o n (.obj fs) = .obj fs := by
          simp [renamePropertyMut, getF_obj, hq]
        rw [hres]; exact h
      | num m =>
        have hres : renamePropertyMut o n (.obj fs) = .obj fs := by
          simp [renamePropertyMut, getF_obj, hq]
        rw [hres]; exact h
      | str t =>
        have hres : renamePropertyMut o n (.obj fs) = .obj fs := by
          simp [renamePropertyMut, getF_obj, hq]
        rw [hres]; exact h
      | arr xs =>
        have hres : renamePropertyMut o n (.obj fs) = .obj fs := by
          simp [renamePropertyMut, getF_obj, hq]
        rw [hres]; exact h
    | none =>
      have hres : renamePropertyMut o n (.obj fs) = .obj fs := by
        simp [renamePropertyMut, getF_obj, hq]
      rw [hres]; exact h
  | null => exact h
  | bool b => exact h
  | num m => exact h
  | str t => exact h
  | arr xs => exact h


/-- The mutation-at-path loop preserves the invariant whenever the
focus-node mutation `f` does: every node it touches is reached through
`properties` values or `items`, which the invariant covers. -/
theorem schemaInv_walkMut (f : Json → Json)
    (hf : ∀ m, schemaInv m = true → schemaInv (f m) = true) :
    ∀ (parts : List String) (node : Json), schemaInv node = true →
      schemaInv (walkMut f node parts) = true := by
  intro parts
  induction parts with
  | nil =>
    intro node h
    exact h
  | cons p rest ih =>
    intro node h
    cases rest with
    | nil =>
      rw [walkMut]
      by_cases hpc : hasPropChild node p = true
      · rw [if_pos hpc]
        exact schemaInv_setPropChild node p _ h
          (hf _ (schemaInv_getPropChild node p h hpc))
      · rw [if_neg hpc]
        by_cases hit : itemsStep node p = true
        · rw [if_pos hit]
          have hit2 : (optTruthy (getF node "items") &&
              jsNumericStr p) = true := hit
          have hop := ((Bool.and_eq_true _ _).mp hit2).1
          exact schemaInv_setItems node _ h
            (hf _ (schemaInv_getItems node h hop))
        · rw [if_neg hit]
          exact h
    | cons q rest2 =>
      rw [walkMut]
      by_cases hpc : hasPropChild node p = true
      · rw [if_pos hpc]
        exact schemaInv_setPropChild node p _ h
          (ih _ (schemaInv_getPropChild node p h hpc))
      · rw [if_neg hpc]
        by_cases hit : itemsStep node p = true
        · rw [if_pos hit]
          have hit2 : (optTruthy (getF node "items") &&
              jsNumericStr p) = true := hit
          have hop := ((Bool.and_eq_true _ _).mp hit2).1
          exact ih _ (schemaInv_setItems node _ h
            (hf _ (schemaInv_getItems node h hop)))
        · rw [if_neg hit]
          exact ih _ h

theorem schemaInv_applyAtPath (f : Json → Json)
    (hf : ∀ m, schemaInv m = true → schemaInv (f m) = true)
    (root : Json) (path : String) (h : schemaInv root = true) :
    schemaInv (applyAtPath f root path) = true := by
  unfold applyAtPath
  by_cases hp : path = ""
  · rw [if_pos hp]
    exact hf _ h
  · rw [if_neg hp]
    exact schemaInv_walkMut f hf _ _ h

/-- One property-structure edit as issued by the `SchemaProperties.tsx`
callbacks: the focus path plus the operation's own arguments. -/
inductive EditOp where
  | add (path : String)
  | remove (path : String) (key : String)
  | rename (path : String) (oldKey newKey : String)

def applyEditOp (root : Json) : EditOp → Json
  | .add path => addProperty root path
  | .remove path key => removeProperty root path key
  | .rename path o n => renameProperty root path o n

def applyEditOps (root : Json) (ops : List EditOp) : Json :=
  ops.foldl applyEditOp root

theorem schemaInv_applyEditOp (root : Json) (op : EditOp)
    (h : schemaInv root = true) :
    schemaInv (applyEditOp root op) = true := by
  cases op with
  | add path =>
    exact schemaInv_applyAtPath _
      (fun m hm => schemaInv_addPropertyMut m hm) root path h
  | remove path key =>
    exact schemaInv_applyAtPath _
      (fun m hm => schemaInv_removePropertyMut key m hm) root path h
  | rename path o n =>
    show schemaInv (renameProperty root path o n) = true
    unfold renameProperty
    by_cases hg : o = n ∨ jsTrim n = ""
    · rw [if_pos hg]
      exact h
    · rw [if_neg hg]
      exact schemaInv_applyAtPath _
        (fun m hm => schemaInv_renamePropertyMut o n m hm) root path h

/-- **C4**: for every starting document satisfying the data-model
invariant (`schemaInv`: at the root and at every schema node reachable
through `properties` values and `items`, whenever `required` is an array
its entries are strings naming keys of that node's `properties` map) and
every finite sequence of `addProperty` / `removeProperty` /
`renameProperty` operations at arbitrary focus paths, the resulting
document still satisfies the invariant — `required` stays a subset of the
`properties` keys at every object node. -/
theorem C4_required_subset_invariant (root : Json) (ops : List EditOp)
    (h : schemaInv root = true) :
    schemaInv (applyEditOps root ops) = true := by
  unfold applyEditOps
  induction ops generalizing root with
  | nil => exact h
  | cons op rest ih =>
    rw [List.foldl_cons]
    exact ih _ (schemaInv_applyEditOp root op h)

/-- Witness for C4: a concrete invariant-satisfying document and a
concrete operation sequence (rename at the root, remove at the root, add
below the focus path `b`). -/
theorem C4_required_subset_invariant_witness :
    schemaInv docAbcReq = true ∧
    schemaInv (applyEditOps docAbcReq
      [.rename "" "b" "x", .remove "" "a", .add "b"]) = true :=
  ⟨by decide, C4_required_subset_invariant docAbcReq
    [.rename "" "b" "x", .remove "" "a", .add "b"] (by decide)⟩

end SchemaEditor
